import Mathlib

/-!
# Verification of the iron_rose set-reconciliation library

Shallow embedding of the `Cell`, `IBF` and `StrataEstimator` components
(src/cell.rs, src/ibf.rs, src/strata_estimator.rs) together with proofs
and refutations of correctness properties stated in the specification.

Conventions of the embedding:
* the element type is the canonical `u128`; XOR on `u128` is modelled by
  `Nat.xor` (XOR never leaves the 128-bit range, so no wrap-around model is
  needed);
* `hash_sum : u128` is likewise a `Nat` combined only by XOR;
* `count : i32` is modelled by `Int` (the claims never drive the count to the
  `i32` overflow boundary);
* fallible code (a Rust panic such as `x % 0` or `.expect`) is modelled by
  `Option`, where `none` is the panic;
* the unbounded `loop` of `IBF::decode` is modelled by a fuel-indexed
  recursion; `none` means the fuel ran out, `some r` means the loop returned
  `r`, and the loop is deterministic, so a `some` answer for one fuel value is
  the answer of the Rust loop;
* the keyed hash functions are external crates (`fasthash` Murmur3 / Metro),
  not part of this repository, so the operations are parametrised by the two
  hash functions `hE` (the element hash `H_elem`) and `hI` (the bucket-index
  hash `H_idx`); concrete scenarios instantiate them with the modelled mixers
  below.
-/

namespace IronRose

/-- Modelled from the spec: a deterministic 64-bit keyed mixer with good
avalanche, standing in for the external keyed hash functions (the source uses
the `fasthash` crate, which is not part of this repository).  This is a
splitmix64-style finalizer. -/
def mix64 (x : Nat) : Nat :=
  let y := x % 2 ^ 64
  let y := ((y ^^^ (y >>> 30)) * 0xbf58476d1ce4e5b9) % 2 ^ 64
  let y := ((y ^^^ (y >>> 27)) * 0x94d049bb133111eb) % 2 ^ 64
  y ^^^ (y >>> 31)

/-- Modelled from the spec: `H_elem : E → U`, the keyed element hash used for
`hash_sum` check-sums (the source uses `fasthash` Murmur3, absent from the
repository).  Deterministic, with avalanche on both 64-bit limbs. -/
def mElem (e : Nat) : Nat := mix64 ((e % 2 ^ 64) ^^^ mix64 (e >>> 64))

/-- Modelled from the spec: `H_idx(e, i)`, the keyed bucket-index hash that
feeds the element and then the position `i` (the source uses `fasthash`
MetroHash, absent from the repository). -/
def mIdx (e i : Nat) : Nat := mix64 (mElem e + (i + 1) * 0x9e3779b97f4a7c15)

/-- Modelled from the spec: the 64-bit hash routing an element to its stratum
(the source uses `fasthash::metro::hash64` on the big-endian bytes). -/
def mSE (e : Nat) : Nat := mix64 (mElem e ^^^ 0x2545f4914f6cdd1d)

/-- `Side<T>` from src/cell.rs: which side of the subtraction a recovered
element came from. -/
inductive Side where
  | Left (val : Nat)
  | Right (val : Nat)
deriving DecidableEq, Repr

/-- The `Deref` impl of `Side`: both variants expose the carried element. -/
def Side.deref : Side → Nat
  | .Left v => v
  | .Right v => v

/-- Decidable equality for `Except` results (the source propagates errors by
value as `Result<_, String>`). -/
instance exceptDecEq {ε α : Type} [DecidableEq ε] [DecidableEq α] : DecidableEq (Except ε α)
  | .error a, .error b =>
    decidable_of_iff (a = b) ⟨fun h => by rw [h], fun h => by injection h⟩
  | .error _, .ok _ => .isFalse fun hh => Except.noConfusion hh
  | .ok _, .error _ => .isFalse fun hh => Except.noConfusion hh
  | .ok a, .ok b =>
    decidable_of_iff (a = b) ⟨fun h => by rw [h], fun h => by injection h⟩

/-- `Cell<T>` from src/cell.rs: one bucket of an IBF. -/
structure Cell where
  id_sum : Nat
  hash_sum : Nat
  count : Int
deriving DecidableEq, Repr

instance : Inhabited Cell := ⟨⟨0, 0, 0⟩⟩

/-- `Cell::encode`: XOR the element into `id_sum`, its hash into `hash_sum`,
and bump the signed count. -/
def Cell.encode (hE : Nat → Nat) (c : Cell) (element : Nat) : Cell :=
  { id_sum := c.id_sum ^^^ element
    hash_sum := c.hash_sum ^^^ hE element
    count := c.count + 1 }

/-- `Cell::is_pure`: count is `±1` and the check-sum matches the hash of
`id_sum`. -/
def Cell.is_pure (hE : Nat → Nat) (c : Cell) : Bool :=
  (c.count == 1 || c.count == -1) && c.hash_sum == hE c.id_sum

/-- `Cell::is_empty`: all three fields are zero. -/
def Cell.is_empty (c : Cell) : Bool :=
  c.count == 0 && c.hash_sum == 0 && c.id_sum == 0

/-- `Cell::decode`: a pure cell yields its `id_sum` tagged by the sign of the
count, an impure cell is an error. -/
def Cell.decode (hE : Nat → Nat) (c : Cell) : Except String Side :=
  if ¬ c.is_pure hE then .error "Impure bucket"
  else if c.count == 1 then .ok (Side.Left c.id_sum)
  else .ok (Side.Right c.id_sum)

/-- `Sub for Cell` (also `SubAssign`): XOR on both sums, subtraction on the
count. -/
def Cell.sub (c r : Cell) : Cell :=
  { id_sum := c.id_sum ^^^ r.id_sum
    hash_sum := c.hash_sum ^^^ r.hash_sum
    count := c.count - r.count }

/-- `Add for Cell`: XOR on both sums, addition on the count. -/
def Cell.add (c r : Cell) : Cell :=
  { id_sum := c.id_sum ^^^ r.id_sum
    hash_sum := c.hash_sum ^^^ r.hash_sum
    count := c.count + r.count }

/-- `IBF<T>` from src/ibf.rs: the cell array plus the two shape scalars. -/
structure IBF where
  cells : List Cell
  hash_count : Nat
  size : Nat
deriving DecidableEq, Repr

instance : Inhabited IBF := ⟨⟨[], 0, 0⟩⟩

/-- `IBF::new_with_hash_count`: `size` default cells. -/
def IBF.new_with_hash_count (size hash_count : Nat) : IBF :=
  { cells := List.replicate size default, hash_count := hash_count, size := size }

/-- `IBF::new`: default `hash_count` of 3, as per the paper. -/
def IBF.new (size : Nat) : IBF := IBF.new_with_hash_count size 3

/-- The bucket index computed inside `IBF::get_ith_cell`: hash of the element
and the position, reduced modulo `size`.  (In Rust, `% 0` panics.) -/
def IBF.get_ith_cell_idx (hI : Nat → Nat → Nat) (v : IBF) (i element : Nat) : Nat :=
  hI element i % v.size

/-- The list of the `hash_count` bucket indices an element touches,
for `i = 0, …, hash_count - 1`. -/
def IBF.idxList (hI : Nat → Nat → Nat) (v : IBF) (element : Nat) : List Nat :=
  (List.range v.hash_count).map (fun i => v.get_ith_cell_idx hI i element)

/-- In-place update of one cell of the backing array
(`*self.get_ith_cell(i, &element)` mutation). -/
def modifyCell (l : List Cell) (i : Nat) (f : Cell → Cell) : List Cell :=
  l.set i (f (l.getD i default))

/-- Apply the same cell update at each index of a list of bucket indices, in
order — the shape of the loops in `IBF::encode` and `IBF::remove`. -/
def applyAt (ids : List Nat) (f : Cell → Cell) (cs : List Cell) : List Cell :=
  ids.foldl (fun acc i => modifyCell acc i f) cs

/-- The cell-array part of `IBF::encode` (the loop body, assuming
`size ≠ 0`). -/
def IBF.encodeT (hE : Nat → Nat) (hI : Nat → Nat → Nat) (v : IBF) (element : Nat) : IBF :=
  { v with cells := applyAt (v.idxList hI element) (fun c => c.encode hE element) v.cells }

/-- `IBF::encode`: encode the element into `hash_count` buckets.  With
`size = 0` the Rust code panics on `hash % 0`; the panic is `none`. -/
def IBF.encode (hE : Nat → Nat) (hI : Nat → Nat → Nat) (v : IBF) (element : Nat) : Option IBF :=
  if v.size = 0 then none else some (v.encodeT hE hI element)

/-- Encoding a whole list of elements in order. -/
def IBF.encodeAll (hE : Nat → Nat) (hI : Nat → Nat → Nat) (v : IBF) (l : List Nat) : Option IBF :=
  l.foldlM (fun s e => s.encode hE hI e) v

/-- The cell obtained by encoding the same element `n` times into a default
cell: XOR leaves the element exactly when `n` is odd, the count is `n`. -/
def encPow (hE : Nat → Nat) (e n : Nat) : Cell :=
  { id_sum := if n % 2 = 1 then e else 0
    hash_sum := if n % 2 = 1 then hE e else 0
    count := (n : Int) }

/-- `IBF::remove`: subtract a (pure) cell from every bucket its element
touches.  On a pure cell `decode` yields the cell's own `id_sum` on either
side, which is the element the source recovers through `Deref`. -/
def IBF.remove (hE : Nat → Nat) (hI : Nat → Nat → Nat) (v : IBF) (cell : Cell) : IBF :=
  { v with cells := applyAt (v.idxList hI cell.id_sum) (fun c => c.sub cell) v.cells }

/-- One iteration of the peeling loop of `IBF::decode`: find a pure cell,
decode it and remove it.  `none` when no pure cell exists (or on the
unreachable `.expect` panic). -/
def IBF.peelStep (hE : Nat → Nat) (hI : Nat → Nat → Nat) (v : IBF) : Option (Side × IBF) :=
  match v.cells.find? (fun c => c.is_pure hE) with
  | some next_pure =>
    match next_pure.decode hE with
    | .ok element => some (element, v.remove hE hI next_pure)
    | .error _ => none
  | none => none

/-- The peeling loop of `IBF::decode`, fuel-indexed.  `none` = out of fuel
(or the unreachable `.expect` panic); `some r` = the loop returned `r`. -/
def IBF.decodeGo (hE : Nat → Nat) (hI : Nat → Nat → Nat) :
    Nat → IBF → Finset Side → Option (Except String (Finset Side))
  | 0, _, _ => none
  | fuel + 1, v, set =>
    match v.cells.find? (fun c => c.is_pure hE) with
    | some next_pure =>
      match next_pure.decode hE with
      | .ok element =>
          IBF.decodeGo hE hI fuel (v.remove hE hI next_pure) (insert element set)
      | .error _ => none
    | none =>
      if v.cells.all (fun c => c.is_empty) then some (.ok set)
      else
        some (.error ("Unable to fully decode: " ++
          toString ((v.cells.filter (fun c => ! c.is_empty)).length) ++ " cells"))

/-- `IBF::decode` with an explicit amount of fuel for the peeling loop. -/
def IBF.decodeFuel (hE : Nat → Nat) (hI : Nat → Nat → Nat) (fuel : Nat) (v : IBF) :
    Option (Except String (Finset Side)) :=
  IBF.decodeGo hE hI fuel v ∅

/-- The result of the (unbounded) peeling loop of `IBF::decode`: the loop is
deterministic, so it returns `r` exactly when some amount of fuel suffices. -/
def IBF.DecodesTo (hE : Nat → Nat) (hI : Nat → Nat → Nat) (v : IBF)
    (r : Except String (Finset Side)) : Prop :=
  ∃ fuel, IBF.decodeFuel hE hI fuel v = some r

/-- `Sub for IBF` / `Sub for &IBF`: shape check, then cell-wise
subtraction. -/
def IBF.sub (l r : IBF) : Except String IBF :=
  if l.hash_count ≠ r.hash_count ∨ l.size ≠ r.size then
    .error "IBFs are not configured the same"
  else
    .ok { cells := (l.cells.zip r.cells).map (fun p => p.1.sub p.2)
          hash_count := l.hash_count
          size := l.size }

/-- `Σ |count|` over all cells — the quantity the termination claim is
about. -/
def IBF.sumAbsCount (v : IBF) : Nat :=
  (v.cells.map (fun c => c.count.natAbs)).sum

/-- Regime predicate for one peeling step: if a pure cell is about to be
peeled, every bucket its element touches has a count that moves toward zero
(without crossing it) under the repeated subtraction — `h` hits of a `±1`
count make `|count|` drop by exactly `h`. -/
def IBF.towardZero (hE : Nat → Nat) (hI : Nat → Nat → Nat) (v : IBF) : Bool :=
  match v.cells.find? (fun c => c.is_pure hE) with
  | none => true
  | some p =>
    (List.range v.cells.length).all (fun j =>
      ((v.cells.getD j default).count - ((v.idxList hI p.id_sum).count j : Int) * p.count).natAbs
          + (v.idxList hI p.id_sum).count j
        == (v.cells.getD j default).count.natAbs)

/-- Iterating the peeling step `n` times; `none` when the peeling stopped
earlier (no pure cell left). -/
def IBF.peelIter (hE : Nat → Nat) (hI : Nat → Nat → Nat) : Nat → IBF → Option IBF
  | 0, v => some v
  | n + 1, v =>
    match v.peelStep hE hI with
    | some (_, v2) => IBF.peelIter hE hI n v2
    | none => none

/-- `StrataEstimator` from src/strata_estimator.rs. -/
structure StrataEstimator where
  ibfs : List IBF
deriving DecidableEq, Repr

/-- `StrataEstimator::new_with_size`: `size` IBFs of 80 buckets each. -/
def StrataEstimator.new_with_size (size : Nat) : StrataEstimator :=
  ⟨(List.range size).map (fun _ => IBF.new 80)⟩

/-- `u64::trailing_zeros` of a 64-bit value (64 when the value is zero). -/
def trailingZeros64 (n : Nat) : Nat :=
  ((List.range 64).find? (fun b => n.testBit b)).getD 64

/-- `StrataEstimator::encode`: route the element to the stratum given by the
trailing zeros of its routing hash, modulo the number of strata.  An empty
estimator panics on `% 0` (`none`), and the inner `IBF::encode` panic is
propagated. -/
def StrataEstimator.encode (hE : Nat → Nat) (hI : Nat → Nat → Nat) (hT : Nat → Nat)
    (se : StrataEstimator) (element : Nat) : Option StrataEstimator :=
  let trailing := trailingZeros64 (hT element)
  let len := se.ibfs.length
  if len = 0 then none
  else
    ((se.ibfs.getD (trailing % len) default).encode hE hI element).map
      (fun ibf => ⟨se.ibfs.set (trailing % len) ibf⟩)

/-- The loop of `StrataEstimator::estimate_differences`, running over the
reversed enumerated list of stratum pairs with the running `count`. -/
def estGo (hE : Nat → Nat) (hI : Nat → Nat → Nat) (fuel : Nat) :
    Nat → List (Nat × IBF × IBF) → Option (Except String Nat)
  | count, [] => some (.ok count)
  | count, (i, l, r) :: rest =>
    match l.sub r with
    | .error e => some (.error e)
    | .ok ibf =>
      match ibf.decodeFuel hE hI fuel with
      | none => none
      | some (.ok set) => estGo hE hI fuel (count + set.card) rest
      | some (.error _) => some (.ok (count * 2 ^ (i + 2)))

/-- `StrataEstimator::estimate_differences`: length check, then the loop from
the highest stratum down, extrapolating by `2^(i+2)` at the first failing
stratum. -/
def StrataEstimator.estimate_differences (hE : Nat → Nat) (hI : Nat → Nat → Nat)
    (fuel : Nat) (a b : StrataEstimator) : Option (Except String Nat) :=
  if a.ibfs.length ≠ b.ibfs.length then
    some (.error "Strata Estimators are of different sizes")
  else
    estGo hE hI fuel 0 (((List.range a.ibfs.length).zip (a.ibfs.zip b.ibfs)).reverse)

/-- Concrete peeling scenario (difference of an IBF encoding `{3}` at
`m = 5` and an empty IBF of the same shape), used by concrete instances of
the peeling claims. -/
def peelScenario : IBF :=
  ((((IBF.new 5).encodeT mElem mIdx 3).sub (IBF.new 5)).toOption).getD (IBF.new 5)

/-- The state after one peeling step of `peelScenario`. -/
def peelScenarioNext : IBF :=
  ((peelScenario.peelStep mElem mIdx).map Prod.snd).getD (IBF.new 5)

/-! ## Basic cell lemmas -/

lemma Cell.decode_of_pure (hE : Nat → Nat) (c : Cell) (h : c.is_pure hE = true) :
    c.decode hE = .ok (if c.count == 1 then Side.Left c.id_sum else Side.Right c.id_sum) := by
  unfold Cell.decode
  rw [h]
  cases hc : (c.count == 1) <;> simp [hc]

lemma Cell.is_pure_default (hE : Nat → Nat) : Cell.is_pure hE default = false := by
  simp [Cell.is_pure, default]

lemma Cell.is_empty_default : Cell.is_empty default = true := by
  simp [Cell.is_empty, default]

lemma Cell.sub_self (c : Cell) : c.sub c = default := by
  simp [Cell.sub, default]

/-- Decoding a state whose cells are all default succeeds with the
accumulated set (there is no pure cell, every cell is empty). -/
lemma IBF.decodeGo_all_default (hE : Nat → Nat) (hI : Nat → Nat → Nat)
    (v : IBF) (acc : Finset Side) (h : ∀ c ∈ v.cells, c = default) :
    IBF.decodeGo hE hI 1 v acc = some (.ok acc) := by
  have hfind : v.cells.find? (fun c => c.is_pure hE) = none := by
    rw [List.find?_eq_none]
    intro x hx
    rw [h x hx, Cell.is_pure_default]
    simp
  have hall : v.cells.all (fun c => c.is_empty) = true := by
    rw [List.all_eq_true]
    intro x hx
    rw [h x hx, Cell.is_empty_default]
  unfold IBF.decodeGo
  rw [hfind]
  simp [hall]

/-! ## Pointwise characterisation of the update loops -/

lemma applyAt_nil (f : Cell → Cell) (cs : List Cell) : applyAt [] f cs = cs := rfl

lemma applyAt_cons (i : Nat) (ids : List Nat) (f : Cell → Cell) (cs : List Cell) :
    applyAt (i :: ids) f cs = applyAt ids f (modifyCell cs i f) := rfl

lemma length_modifyCell (l : List Cell) (i : Nat) (f : Cell → Cell) :
    (modifyCell l i f).length = l.length := by
  simp [modifyCell]

lemma getD_modifyCell (l : List Cell) (i : Nat) (f : Cell → Cell) (j : Nat) :
    (modifyCell l i f).getD j default
      = if i = j ∧ j < l.length then f (l.getD j default) else l.getD j default := by
  unfold modifyCell
  rw [List.getD_eq_getElem?_getD, List.getElem?_set]
  split
  · next hij =>
    subst hij
    by_cases hl : i < l.length
    · simp only [hl, and_true, reduceIte, Option.getD_some, List.getD_eq_getElem?_getD]
    · simp only [hl, and_false, reduceIte, Option.getD_none, List.getD_eq_getElem?_getD]
      rw [List.getElem?_eq_none (by omega)]
      rfl
  · next hij =>
    rw [if_neg (fun hh => hij hh.1), List.getD_eq_getElem?_getD]

lemma length_applyAt (ids : List Nat) (f : Cell → Cell) (cs : List Cell) :
    (applyAt ids f cs).length = cs.length := by
  induction ids generalizing cs with
  | nil => rfl
  | cons i ids ih =>
    rw [applyAt_cons, ih, length_modifyCell]

lemma getD_applyAt (ids : List Nat) (f : Cell → Cell) (cs : List Cell) (j : Nat)
    (hj : j < cs.length) (hid : ∀ i ∈ ids, i < cs.length) :
    (applyAt ids f cs).getD j default = f^[ids.count j] (cs.getD j default) := by
  induction ids generalizing cs with
  | nil => simp [applyAt_nil]
  | cons i ids ih =>
    rw [applyAt_cons]
    have hlen : (modifyCell cs i f).length = cs.length := length_modifyCell cs i f
    rw [ih (modifyCell cs i f) (by omega)
      (fun x hx => by rw [hlen]; exact hid x (List.mem_cons_of_mem _ hx))]
    rw [getD_modifyCell, List.count_cons]
    by_cases hij : i = j
    · subst hij
      rw [if_pos ⟨rfl, hj⟩, if_pos (beq_self_eq_true i)]
      rw [← Function.iterate_succ_apply]
    · rw [if_neg (fun hh => hij hh.1), if_neg (by simpa using hij), Nat.add_zero]

lemma iterate_encode (hE : Nat → Nat) (e : Nat) (n : Nat) :
    (fun c => c.encode hE e)^[n] default = encPow hE e n := by
  induction n with
  | zero => simp [encPow, default]
  | succ n ih =>
    rw [Function.iterate_succ_apply', ih]
    rcases Nat.mod_two_eq_zero_or_one n with h | h
    · have hmod : (n + 1) % 2 = 1 := by omega
      simp only [Cell.encode, encPow, h, hmod, Cell.mk.injEq]
      refine ⟨by simp, by simp, by push_cast; ring⟩
    · have hmod : (n + 1) % 2 = 0 := by omega
      simp only [Cell.encode, encPow, h, hmod, Cell.mk.injEq]
      refine ⟨by simp [Nat.xor_self], by simp [Nat.xor_self], by push_cast; ring⟩

lemma encPow_one (hE : Nat → Nat) (e : Nat) : encPow hE e 1 = ⟨e, hE e, 1⟩ := by
  simp [encPow]

lemma iterate_sub (hE : Nat → Nat) (e : Nat) (n : Nat) :
    (fun c => c.sub (encPow hE e 1))^[n] (encPow hE e n) = default := by
  induction n with
  | zero => simp [encPow, default]
  | succ n ih =>
    rw [Function.iterate_succ_apply]
    have hstep : (encPow hE e (n + 1)).sub (encPow hE e 1) = encPow hE e n := by
      rcases Nat.mod_two_eq_zero_or_one n with h | h
      · have hmod : (n + 1) % 2 = 1 := by omega
        simp only [Cell.sub, encPow, h, hmod, Cell.mk.injEq]
        refine ⟨by simp [Nat.xor_self], by simp [Nat.xor_self], by push_cast; ring⟩
      · have hmod : (n + 1) % 2 = 0 := by omega
        simp only [Cell.sub, encPow, h, hmod, Cell.mk.injEq]
        refine ⟨by simp [Nat.xor_self], by simp [Nat.xor_self], by push_cast; ring⟩
    rw [hstep, ih]

lemma is_pure_encPow_one (hE : Nat → Nat) (e : Nat) :
    (encPow hE e 1).is_pure hE = true := by
  simp [encPow, Cell.is_pure]

lemma eq_one_of_is_pure_encPow (hE : Nat → Nat) (e n : Nat)
    (h : (encPow hE e n).is_pure hE = true) : n = 1 := by
  simp only [Cell.is_pure, encPow, Bool.and_eq_true, Bool.or_eq_true, beq_iff_eq] at h
  rcases h.1 with h2 | h2 <;> omega

lemma count_three (x y z j : Nat) :
    List.count j [x, y, z]
      = (if x = j then 1 else 0) + (if y = j then 1 else 0) + (if z = j then 1 else 0) := by
  simp only [List.count_cons, List.count_nil, beq_iff_eq]
  split_ifs <;> omega

/-! ## Claim C7: Cell.decode semantics -/

/-- C7 (counterexample): the claim says `decode` returns `Left(id_sum)`
whenever `count == +1`, but the code also demands the `hash_sum` check-sum to
match: the cell `(0, 1, 1)` has `count = 1` yet fails with the impure-cell
error. -/
theorem C7_counterexample :
    (Cell.mk 0 1 1).count = 1 ∧
      Cell.decode mElem (Cell.mk 0 1 1) = .error "Impure bucket" := by
  constructor
  · rfl
  · decide

/-- C7 (amended): `decode` returns `Left(id_sum)` if `count == +1` **and the
check-sum matches** (`hash_sum == H_elem(id_sum)`), `Right(id_sum)` if
`count == -1` and the check-sum matches, and otherwise (any impure cell)
fails with the impure-cell error. -/
theorem C7_cell_decode (hE : Nat → Nat) (c : Cell) :
    (c.count = 1 → c.hash_sum = hE c.id_sum → c.decode hE = .ok (Side.Left c.id_sum)) ∧
    (c.count = -1 → c.hash_sum = hE c.id_sum → c.decode hE = .ok (Side.Right c.id_sum)) ∧
    (c.is_pure hE = false → c.decode hE = .error "Impure bucket") := by
  refine ⟨fun h1 h2 => ?_, fun h1 h2 => ?_, fun h => ?_⟩
  · have hp : c.is_pure hE = true := by simp [Cell.is_pure, h1, h2]
    rw [Cell.decode_of_pure hE c hp, h1]
    simp
  · have hp : c.is_pure hE = true := by simp [Cell.is_pure, h1, h2]
    rw [Cell.decode_of_pure hE c hp, h1]
    simp
  · unfold Cell.decode
    rw [h]
    simp

/-- C7 (witness): a concrete pure cell decodes to `Left` of its `id_sum`. -/
theorem C7_cell_decode_witness :
    Cell.decode mElem (Cell.mk 5 (mElem 5) 1) = .ok (Side.Left 5) :=
  (C7_cell_decode mElem (Cell.mk 5 (mElem 5) 1)).1 rfl rfl

/-! ## Claim C8: shape check on subtraction -/

/-- C8: subtraction of two IBFs fails with the shape-mismatch error exactly
when `m` or `k` differ; with equal shapes it succeeds with a fresh IBF of the
same `m` and `k` whose cell `j` is `self.cells[j] - other.cells[j]`. -/
theorem C8_sub_shape (l r : IBF) :
    ((l.sub r = .error "IBFs are not configured the same") ↔
      (l.hash_count ≠ r.hash_count ∨ l.size ≠ r.size)) ∧
    (l.hash_count = r.hash_count → l.size = r.size →
      ∃ d, l.sub r = .ok d ∧ d.hash_count = l.hash_count ∧ d.size = l.size ∧
        d.cells.length = min l.cells.length r.cells.length ∧
        ∀ j, j < l.cells.length → j < r.cells.length →
          d.cells.getD j default =
            (l.cells.getD j default).sub (r.cells.getD j default)) := by
  constructor
  · unfold IBF.sub
    split
    · simpa
    · next h => simp only [not_or, not_not] at h; simp [h.1, h.2]
  · intro h1 h2
    refine ⟨⟨(l.cells.zip r.cells).map (fun p => p.1.sub p.2), l.hash_count, l.size⟩,
      ?_, rfl, rfl, ?_, ?_⟩
    · unfold IBF.sub
      rw [if_neg (by simp [h1, h2])]
    · simp [List.length_zip]
    · intro j hj1 hj2
      have hj : j < (l.cells.zip r.cells).length := by
        simp [List.length_zip]; omega
      rw [List.getD_eq_getElem?_getD, List.getElem?_map]
      rw [List.getElem?_eq_getElem hj]
      simp only [Option.map_some, Option.getD_some, List.getElem_zip]
      rw [List.getD_eq_getElem?_getD, List.getElem?_eq_getElem hj1]
      rw [List.getD_eq_getElem?_getD, List.getElem?_eq_getElem hj2]
      rfl

/-- C8 (witness): equal shapes subtract pointwise (and, from the first
conjunct, scenario E6: `IBF(m=10) − IBF(m=20)` is a shape mismatch). -/
theorem C8_sub_shape_witness :
    ((IBF.new 10).sub (IBF.new 20) = .error "IBFs are not configured the same") ∧
    (∃ d, (IBF.new 3).sub (IBF.new 3) = .ok d ∧ d.hash_count = 3 ∧ d.size = 3 ∧
      d.cells.length = min 3 3 ∧
      ∀ j, j < (3 : Nat) → j < (3 : Nat) →
        d.cells.getD j default = ((IBF.new 3).cells.getD j default).sub
          ((IBF.new 3).cells.getD j default)) := by
  constructor
  · exact (C8_sub_shape (IBF.new 10) (IBF.new 20)).1.mpr (Or.inr (by decide))
  · have h := (C8_sub_shape (IBF.new 3) (IBF.new 3)).2 rfl rfl
    simpa using h

/-! ## Claim C10: bucket index bound and the `m = 0` panic -/

/-- C10: for any hash function and any IBF with `size ≥ 1` the bucket index
computed inside `get_ith_cell` is strictly below `size`, so `encode` never
indexes out of bounds; with `size = 0` the Rust code panics on the remainder
by zero (modelled as `none`). -/
theorem C10_index_bound :
    (∀ (hI : Nat → Nat → Nat) (v : IBF) (i element : Nat),
      0 < v.size → v.get_ith_cell_idx hI i element < v.size) ∧
    (∀ (hE : Nat → Nat) (hI : Nat → Nat → Nat) (v : IBF) (element : Nat),
      v.size = 0 → v.encode hE hI element = none) := by
  constructor
  · intro hI v i element h
    exact Nat.mod_lt _ h
  · intro hE hI v element h
    simp [IBF.encode, h]

/-- C10 (witness): at `m = 20` the three bucket indices of element 10 are in
range, and `encode` on an `m = 0` IBF panics. -/
theorem C10_index_bound_witness :
    (IBF.new 20).get_ith_cell_idx mIdx 0 10 < 20 ∧
      (IBF.new 0).encode mElem mIdx 7 = none :=
  ⟨C10_index_bound.1 mIdx (IBF.new 20) 0 10 (by decide),
   C10_index_bound.2 mElem mIdx (IBF.new 0) 7 rfl⟩

/-! ## Claim C1: the concrete scenario E1 -/

/-- C1: encoding `A = {10, 20, 30}` and `B = {10, 33, 42}` into two IBFs with
`m = 20`, `k = 3`, subtracting and decoding succeeds with exactly
`{Left 20, Left 30, Right 33, Right 42}` (hash functions modelled from the
spec, as the `fasthash` hashes are external to the repository). -/
theorem C1_scenario_E1 :
    (((IBF.new 20).encodeAll mElem mIdx [10, 20, 30]).bind (fun a =>
      ((IBF.new 20).encodeAll mElem mIdx [10, 33, 42]).bind (fun b =>
        (a.sub b).toOption.bind (fun d => IBF.decodeFuel mElem mIdx 9 d))))
      = some (.ok {Side.Left 20, Side.Left 30, Side.Right 33, Side.Right 42}) := by
  have h1 : (((IBF.new 20).encodeAll mElem mIdx [10, 20, 30]).bind (fun a =>
      ((IBF.new 20).encodeAll mElem mIdx [10, 33, 42]).bind (fun b =>
        (a.sub b).toOption.bind (fun d => IBF.decodeFuel mElem mIdx 9 d))))
      = some (.ok {Side.Right 42, Side.Right 33, Side.Left 20, Side.Left 30}) := by decide
  have h2 : ({Side.Right 42, Side.Right 33, Side.Left 20, Side.Left 30} : Finset Side)
      = {Side.Left 20, Side.Left 30, Side.Right 33, Side.Right 42} := by decide
  rw [h1, h2]

/-! ## Claim C2 (counterexample part): `m = 1` breaks the round-trip -/

/-- C2 (counterexample): with `m = 1` (and `k = 3`) all three bucket indices
of any element coincide, the single cell gets count 3 and is never pure, so
the round-trip of a single element fails — the claim's "every bucket count
m ≥ 1" is too strong. -/
theorem C2_counterexample :
    (((IBF.new 1).encode mElem mIdx 1).bind (fun v => IBF.decodeFuel mElem mIdx 5 v))
      = some (.error "Unable to fully decode: 1 cells") := by
  decide

/-! ## Claim C4 (counterexample part): a peeling step reduces `Σ|count|` by
`k`, not `2k` -/

/-- C4 (counterexample): on the difference of `IBF({3})` and `IBF(∅)` at
`m = 5` (three pairwise distinct bucket indices), one peeling step reduces
`Σ|count|` from `3` to `0` — by `k = 3`, not by `2k = 6`. -/
theorem C4_counterexample :
    ((((IBF.new 5).encode mElem mIdx 3).bind (fun a => (a.sub (IBF.new 5)).toOption)).bind
        (fun d => (d.peelStep mElem mIdx).map
          (fun p => (d.sumAbsCount, p.2.sumAbsCount, d.hash_count))))
      = some (3, 0, 3) ∧ 3 - 0 ≠ 2 * 3 := by
  constructor
  · decide
  · decide

/-! ## Claim C3: identity `decode(IBF(S) − IBF(S)) = ∅` -/

/-- C3: for every element list, every bucket count on which the IBF can be
built and any hash functions, subtracting an IBF from an identically-encoded
one and decoding yields the empty set — exactly, for every `m`. -/
theorem C3_identity (hE : Nat → Nat) (hI : Nat → Nat → Nat)
    (l : List Nat) (m : Nat) (v : IBF)
    (henc : (IBF.new m).encodeAll hE hI l = some v) :
    ∃ d, v.sub v = .ok d ∧ IBF.DecodesTo hE hI d (.ok ∅) := by
  clear henc
  have hzip : (v.cells.zip v.cells).map (fun p => p.1.sub p.2)
      = v.cells.map (fun c => c.sub c) := by
    induction v.cells with
    | nil => rfl
    | cons x xs ih => simp only [List.zip_cons_cons, List.map_cons, ih]
  refine ⟨⟨v.cells.map (fun c => c.sub c), v.hash_count, v.size⟩, ?_, ?_⟩
  · unfold IBF.sub
    rw [if_neg (by simp)]
    rw [hzip]
  · refine ⟨1, ?_⟩
    unfold IBF.decodeFuel
    apply IBF.decodeGo_all_default
    intro c hc
    simp only [List.mem_map] at hc
    obtain ⟨p, _, rfl⟩ := hc
    exact Cell.sub_self p

/-! ## Claim C2 (amended part): round-trip of a single element -/

/-- C2 (amended): for every hash pair, every element `e` and every `m ≥ 1`
such that the three bucket indices of `e` are **not all equal**, encoding `e`
into a fresh IBF of size `m` (`k = 3`) and decoding returns exactly
`{Left e}`. -/
theorem C2_roundtrip_amended (hE : Nat → Nat) (hI : Nat → Nat → Nat) (e m : Nat) (v : IBF)
    (hm : 0 < m)
    (hne : ¬ (hI e 0 % m = hI e 1 % m ∧ hI e 1 % m = hI e 2 % m))
    (henc : (IBF.new m).encode hE hI e = some v) :
    IBF.DecodesTo hE hI v (.ok {Side.Left e}) := by
  have hsize : (IBF.new m).size = m := rfl
  unfold IBF.encode at henc
  rw [hsize, if_neg (by omega)] at henc
  injection henc with henc
  subst henc
  set a := hI e 0 % m with ha
  set b := hI e 1 % m with hb
  set c := hI e 2 % m with hc
  have hids : (IBF.new m).idxList hI e = [a, b, c] := rfl
  set ids : List Nat := [a, b, c] with hidsdef
  have hlt : ∀ i ∈ ids, i < m := by
    intro i hi
    have hi3 : i = a ∨ i = b ∨ i = c := by simpa [hidsdef] using hi
    rcases hi3 with rfl | rfl | rfl <;> exact Nat.mod_lt _ hm
  -- the encoded state
  set w := (IBF.new m).encodeT hE hI e with hw
  have hwcells : w.cells = applyAt ids (fun cc => cc.encode hE e) (List.replicate m default) := by
    rw [hw]
    unfold IBF.encodeT
    rw [hids]
    rfl
  have hwlen : w.cells.length = m := by
    rw [hwcells, length_applyAt, List.length_replicate]
  have hwsize : w.size = m := rfl
  have hwhc : w.hash_count = 3 := rfl
  have hrep : ∀ j, j < m → (List.replicate m default : List Cell).getD j default = default := by
    intro j hj
    rw [List.getD_eq_getElem?_getD, List.getElem?_replicate, if_pos hj]
    rfl
  have hpoint : ∀ j, j < m → w.cells.getD j default = encPow hE e (ids.count j) := by
    intro j hj
    rw [hwcells, getD_applyAt _ _ _ _ (by simpa using hj) (by simpa using hlt)]
    rw [hrep j hj, iterate_encode]
  -- there is a bucket hit exactly once
  have hone : ∃ j, j < m ∧ ids.count j = 1 := by
    by_cases hab : a = b
    · have hbc : ¬ b = c := fun h => hne ⟨hab, h⟩
      have hac : ¬ a = c := fun h => hbc (hab.symm.trans h)
      exact ⟨c, hlt c (by simp [hidsdef]), by
        rw [hidsdef, count_three, if_neg hac, if_neg hbc, if_pos rfl]⟩
    · by_cases hca : c = a
      · have hcb : ¬ c = b := fun h => hab (hca.symm.trans h)
        exact ⟨b, hlt b (by simp [hidsdef]), by
          rw [hidsdef, count_three, if_neg hab, if_pos rfl, if_neg hcb]⟩
      · exact ⟨a, hlt a (by simp [hidsdef]), by
          rw [hidsdef, count_three, if_pos rfl, if_neg (fun h => hab h.symm),
            if_neg hca]⟩
  obtain ⟨j0, hj0, hcnt0⟩ := hone
  -- the find? step yields the pure cell (e, hE e, 1)
  have hmem : encPow hE e 1 ∈ w.cells := by
    have : w.cells.getD j0 default = encPow hE e 1 := by rw [hpoint j0 hj0, hcnt0]
    rw [List.getD_eq_getElem?_getD, List.getElem?_eq_getElem (by omega : j0 < w.cells.length)] at this
    simp only [Option.getD_some] at this
    exact this ▸ List.getElem_mem _
  have hfsome : (w.cells.find? (fun cc => cc.is_pure hE)).isSome = true := by
    rw [List.find?_isSome]
    exact ⟨encPow hE e 1, hmem, is_pure_encPow_one hE e⟩
  obtain ⟨y, hy⟩ := Option.isSome_iff_exists.mp hfsome
  have hypure : y.is_pure hE = true := List.find?_some hy
  have hyval : y = encPow hE e 1 := by
    have hymem := List.mem_of_find?_eq_some hy
    obtain ⟨n, hn, hget⟩ := List.mem_iff_getElem.mp hymem
    have : w.cells.getD n default = y := by
      rw [List.getD_eq_getElem?_getD, List.getElem?_eq_getElem hn]
      simpa using hget
    rw [hpoint n (by omega)] at this
    subst this
    rw [eq_one_of_is_pure_encPow hE e _ hypure]
  -- the state after removal is all default
  have hrem : ∀ j, j < m → ((w.remove hE hI y).cells.getD j default) = default := by
    intro j hj
    have hremcells : (w.remove hE hI y).cells
        = applyAt ids (fun cc => cc.sub y) w.cells := by
      unfold IBF.remove
      have : w.idxList hI y.id_sum = ids := by
        rw [hyval]
        rw [encPow_one]
        rfl
      rw [this]
    rw [hremcells, getD_applyAt _ _ _ _ (by omega) (by rw [hwlen]; exact hlt)]
    rw [hpoint j hj, hyval]
    exact iterate_sub hE e (ids.count j)
  have hremlen : (w.remove hE hI y).cells.length = m := by
    unfold IBF.remove
    simpa [length_applyAt] using hwlen
  -- run the decoder with fuel 2
  have hdec : y.decode hE = .ok (Side.Left e) := by
    rw [Cell.decode_of_pure hE _ hypure, hyval, encPow_one]
    simp
  have hallzero : ∀ cc ∈ (w.remove hE hI y).cells, cc = default := by
    intro cc hcc
    obtain ⟨n, hn, hget⟩ := List.mem_iff_getElem.mp hcc
    have hgd : (w.remove hE hI y).cells.getD n default = cc := by
      rw [List.getD_eq_getElem?_getD, List.getElem?_eq_getElem hn]
      simpa using hget
    rw [hrem n (by omega)] at hgd
    exact hgd.symm
  refine ⟨2, ?_⟩
  unfold IBF.decodeFuel
  have hgo2 : IBF.decodeGo hE hI 2 w ∅
      = IBF.decodeGo hE hI 1 (w.remove hE hI y) (insert (Side.Left e) ∅) := by
    simp only [show (2 : Nat) = 1 + 1 from rfl, IBF.decodeGo, hy, hdec]
  rw [hgo2, IBF.decodeGo_all_default hE hI _ _ hallzero, Finset.insert_empty]

/-- C2 (witness): element 3 at `m = 5` has three pairwise distinct bucket
indices under the modelled hashes, and round-trips to `{Left 3}`. -/
theorem C2_roundtrip_amended_witness :
    IBF.DecodesTo mElem mIdx ((IBF.new 5).encodeT mElem mIdx 3) (.ok {Side.Left 3}) :=
  C2_roundtrip_amended mElem mIdx 3 5 _ (by decide) (by decide) (by decide)

/-! ## Claim C9: commutativity of encode -/

lemma modifyCell_comm (cs : List Cell) (i j : Nat) (f g : Cell → Cell)
    (hfg : ∀ x, f (g x) = g (f x)) :
    modifyCell (modifyCell cs j g) i f = modifyCell (modifyCell cs i f) j g := by
  by_cases hij : i = j
  · subst hij
    by_cases hl : i < cs.length
    · unfold modifyCell
      rw [List.getD_eq_getElem?_getD (cs.set i _), List.getElem?_set_self hl,
        List.getD_eq_getElem?_getD (cs.set i _), List.getElem?_set_self hl]
      simp only [Option.getD_some]
      rw [List.set_set, List.set_set, List.getD_eq_getElem?_getD, hfg]
    · have h1 : ∀ (h : Cell → Cell), modifyCell cs i h = cs := by
        intro h
        unfold modifyCell
        exact List.set_eq_of_length_le (by omega)
      rw [h1, h1]
      exact (h1 g).symm
  · unfold modifyCell
    rw [List.getD_eq_getElem?_getD (cs.set j _), List.getElem?_set_ne (fun h => hij h.symm),
      List.getD_eq_getElem?_getD (cs.set i _), List.getElem?_set_ne hij,
      List.set_comm _ _ _ (fun h => hij h.symm), ← List.getD_eq_getElem?_getD,
      ← List.getD_eq_getElem?_getD]

lemma applyAt_modifyCell (ids : List Nat) (j : Nat) (f g : Cell → Cell)
    (hfg : ∀ x, f (g x) = g (f x)) (cs : List Cell) :
    applyAt ids f (modifyCell cs j g) = modifyCell (applyAt ids f cs) j g := by
  induction ids generalizing cs with
  | nil => rfl
  | cons i ids ih =>
    rw [applyAt_cons, applyAt_cons, modifyCell_comm cs i j f g hfg, ih]

lemma applyAt_comm (ids1 ids2 : List Nat) (f g : Cell → Cell)
    (hfg : ∀ x, f (g x) = g (f x)) (cs : List Cell) :
    applyAt ids2 g (applyAt ids1 f cs) = applyAt ids1 f (applyAt ids2 g cs) := by
  induction ids2 generalizing cs with
  | nil => rfl
  | cons i ids2 ih =>
    rw [applyAt_cons, applyAt_cons,
      ← applyAt_modifyCell ids1 i f g hfg, ih]

lemma cell_encode_comm (hE : Nat → Nat) (a b : Nat) (x : Cell) :
    (x.encode hE b).encode hE a = (x.encode hE a).encode hE b := by
  simp only [Cell.encode, Cell.mk.injEq]
  refine ⟨?_, ?_, trivial⟩
  · rw [Nat.xor_assoc, Nat.xor_assoc, Nat.xor_comm b a]
  · rw [Nat.xor_assoc, Nat.xor_assoc, Nat.xor_comm (hE b) (hE a)]

lemma encodeT_comm (hE : Nat → Nat) (hI : Nat → Nat → Nat) (v : IBF) (a b : Nat) :
    (v.encodeT hE hI a).encodeT hE hI b = (v.encodeT hE hI b).encodeT hE hI a := by
  have hidsa : ∀ w : IBF, w.hash_count = v.hash_count → w.size = v.size →
      w.idxList hI a = v.idxList hI a := by
    intro w h1 h2
    unfold IBF.idxList IBF.get_ith_cell_idx
    rw [h1, h2]
  have hidsb : ∀ w : IBF, w.hash_count = v.hash_count → w.size = v.size →
      w.idxList hI b = v.idxList hI b := by
    intro w h1 h2
    unfold IBF.idxList IBF.get_ith_cell_idx
    rw [h1, h2]
  show (⟨applyAt ((v.encodeT hE hI a).idxList hI b) (fun c => c.encode hE b)
      (v.encodeT hE hI a).cells, (v.encodeT hE hI a).hash_count, (v.encodeT hE hI a).size⟩ : IBF)
    = ⟨applyAt ((v.encodeT hE hI b).idxList hI a) (fun c => c.encode hE a)
      (v.encodeT hE hI b).cells, (v.encodeT hE hI b).hash_count, (v.encodeT hE hI b).size⟩
  rw [hidsb (v.encodeT hE hI a) rfl rfl, hidsa (v.encodeT hE hI b) rfl rfl]
  simp only [IBF.mk.injEq]
  refine ⟨?_, rfl, rfl⟩
  show applyAt (v.idxList hI b) (fun c => c.encode hE b)
      (applyAt (v.idxList hI a) (fun c => c.encode hE a) v.cells)
    = applyAt (v.idxList hI a) (fun c => c.encode hE a)
      (applyAt (v.idxList hI b) (fun c => c.encode hE b) v.cells)
  exact applyAt_comm _ _ _ _ (fun x => (cell_encode_comm hE b a x).symm) v.cells

lemma encodeT_size (hE : Nat → Nat) (hI : Nat → Nat → Nat) (v : IBF) (e : Nat) :
    (v.encodeT hE hI e).size = v.size := rfl

lemma encodeAll_some_of_size_ne (hE : Nat → Nat) (hI : Nat → Nat → Nat)
    (l : List Nat) (v : IBF) (hv : v.size ≠ 0) :
    v.encodeAll hE hI l = some (l.foldl (fun s e => s.encodeT hE hI e) v) := by
  induction l generalizing v with
  | nil => rfl
  | cons x xs ih =>
    unfold IBF.encodeAll
    rw [List.foldlM_cons]
    have hx : v.encode hE hI x = some (v.encodeT hE hI x) := by
      unfold IBF.encode
      rw [if_neg hv]
    rw [hx]
    show xs.foldlM (fun s e => s.encode hE hI e) (v.encodeT hE hI x)
      = some ((x :: xs).foldl (fun s e => s.encodeT hE hI e) v)
    rw [List.foldl_cons]
    exact ih (v.encodeT hE hI x) (by rw [encodeT_size]; exact hv)

lemma encodeAll_none_of_size_eq (hE : Nat → Nat) (hI : Nat → Nat → Nat)
    (l : List Nat) (v : IBF) (hv : v.size = 0) (hl : l ≠ []) :
    v.encodeAll hE hI l = none := by
  cases l with
  | nil => exact absurd rfl hl
  | cons x xs =>
    unfold IBF.encodeAll
    rw [List.foldlM_cons]
    have hx : v.encode hE hI x = none := by
      unfold IBF.encode
      rw [if_pos hv]
    rw [hx]
    rfl

/-- C9: for every pair of permuted element sequences, encoding them into two
freshly constructed IBFs of the same `m` and `k` gives the same result (the
same cell array), and hence IBFs that decode identically. -/
theorem C9_encode_commutative (hE : Nat → Nat) (hI : Nat → Nat → Nat)
    (m k : Nat) (l1 l2 : List Nat) (hperm : l1.Perm l2) :
    (IBF.new_with_hash_count m k).encodeAll hE hI l1
      = (IBF.new_with_hash_count m k).encodeAll hE hI l2 ∧
    (∀ v1 v2, (IBF.new_with_hash_count m k).encodeAll hE hI l1 = some v1 →
      (IBF.new_with_hash_count m k).encodeAll hE hI l2 = some v2 →
      v1.cells = v2.cells ∧ ∀ n, IBF.decodeFuel hE hI n v1 = IBF.decodeFuel hE hI n v2) := by
  have hmain : (IBF.new_with_hash_count m k).encodeAll hE hI l1
      = (IBF.new_with_hash_count m k).encodeAll hE hI l2 := by
    by_cases hm : m = 0
    · subst hm
      cases hl1 : l1 with
      | nil =>
        have hl2 : l2 = [] := List.Perm.eq_nil (hl1 ▸ hperm).symm
        rw [hl2]
      | cons x xs =>
        have hl2 : l2 ≠ [] := by
          intro hh
          have := List.Perm.eq_nil (hh ▸ hperm)
          simp [hl1] at this
        rw [encodeAll_none_of_size_eq hE hI _ _ rfl (by simp [hl1]),
          encodeAll_none_of_size_eq hE hI _ _ rfl hl2]
    · have hsz : (IBF.new_with_hash_count m k).size ≠ 0 := hm
      rw [encodeAll_some_of_size_ne hE hI _ _ hsz, encodeAll_some_of_size_ne hE hI _ _ hsz]
      congr 1
      haveI : RightCommutative (fun (s : IBF) (e : Nat) => s.encodeT hE hI e) :=
        ⟨fun s a b => encodeT_comm hE hI s a b⟩
      exact List.Perm.foldl_eq hperm _
  refine ⟨hmain, fun v1 v2 h1 h2 => ?_⟩
  rw [hmain, h2] at h1
  injection h1 with h1
  rw [h1]
  exact ⟨rfl, fun n => rfl⟩

/-- C9 (witness): `[1, 2]` and `[2, 1]` at `m = 4`, `k = 3` give equal
encodings. -/
theorem C9_encode_commutative_witness :
    (IBF.new_with_hash_count 4 3).encodeAll mElem mIdx [1, 2]
      = (IBF.new_with_hash_count 4 3).encodeAll mElem mIdx [2, 1] :=
  (C9_encode_commutative mElem mIdx 4 3 [1, 2] [2, 1] (by decide)).1

/-! ## Claims C5 and C6: the strata estimator loop -/

lemma estGo_all_ok (hE : Nat → Nat) (hI : Nat → Nat → Nat) (fuel : Nat)
    (S : Nat → Finset Side) (zs : List (Nat × IBF × IBF)) (count : Nat)
    (H : ∀ x ∈ zs, ∃ d, x.2.1.sub x.2.2 = .ok d ∧
      IBF.decodeFuel hE hI fuel d = some (.ok (S x.1))) :
    estGo hE hI fuel count zs
      = some (.ok (count + (zs.map (fun x => (S x.1).card)).sum)) := by
  induction zs generalizing count with
  | nil => simp [estGo]
  | cons x zs ih =>
    have Hrest : ∀ y ∈ zs, ∃ d, y.2.1.sub y.2.2 = .ok d ∧
        IBF.decodeFuel hE hI fuel d = some (.ok (S y.1)) :=
      fun y hy => H y (List.mem_cons_of_mem x hy)
    obtain ⟨d, hd1, hd2⟩ := H x (List.mem_cons_self x zs)
    obtain ⟨i, l, r⟩ := x
    simp only at hd1 hd2
    simp only [estGo, hd1, hd2]
    rw [ih (count + (S i).card) Hrest]
    simp only [List.map_cons, List.sum_cons]
    congr 2
    omega

lemma estGo_first_fail (hE : Nat → Nat) (hI : Nat → Nat → Nat) (fuel : Nat)
    (S : Nat → Finset Side) (pre : List (Nat × IBF × IBF))
    (s1 : Nat) (l1 r1 : IBF) (rest : List (Nat × IBF × IBF)) (count : Nat)
    (d1 : IBF) (msg : String)
    (Hpre : ∀ x ∈ pre, ∃ d, x.2.1.sub x.2.2 = .ok d ∧
      IBF.decodeFuel hE hI fuel d = some (.ok (S x.1)))
    (h1 : l1.sub r1 = .ok d1)
    (h2 : IBF.decodeFuel hE hI fuel d1 = some (.error msg)) :
    estGo hE hI fuel count (pre ++ (s1, l1, r1) :: rest)
      = some (.ok ((count + (pre.map (fun x => (S x.1).card)).sum) * 2 ^ (s1 + 2))) := by
  induction pre generalizing count with
  | nil =>
    simp only [List.nil_append, estGo, h1, h2, List.map_nil, List.sum_nil, Nat.add_zero]
  | cons x pre ih =>
    have Hrest : ∀ y ∈ pre, ∃ d, y.2.1.sub y.2.2 = .ok d ∧
        IBF.decodeFuel hE hI fuel d = some (.ok (S y.1)) :=
      fun y hy => Hpre y (List.mem_cons_of_mem x hy)
    obtain ⟨d, hd1, hd2⟩ := Hpre x (List.mem_cons_self x pre)
    obtain ⟨i, l, r⟩ := x
    simp only at hd1 hd2
    simp only [List.cons_append, estGo, hd1, hd2]
    rw [show pre.append ((s1, l1, r1) :: rest) = pre ++ ((s1, l1, r1) :: rest) from rfl]
    rw [ih (count + (S i).card) Hrest]
    simp only [List.map_cons, List.sum_cons]
    congr 3
    omega

/-- The reversed enumerated stratum list, as a function of the position. -/
lemma stratumList_getElem (A B : List IBF) (L : Nat) (hA : A.length = L)
    (hB : B.length = L) (t : Nat) (ht : t < L) :
    (((List.range L).zip (A.zip B)).reverse)[t]?
      = some (L - 1 - t, A.getD (L - 1 - t) default, B.getD (L - 1 - t) default) := by
  have hzlen : ((List.range L).zip (A.zip B)).length = L := by
    simp [List.length_zip, hA, hB]
  rw [List.getElem?_reverse (by omega)]
  rw [hzlen]
  rw [List.getElem?_eq_getElem (by omega : L - 1 - t < ((List.range L).zip (A.zip B)).length)]
  rw [List.getElem_zip, List.getElem_zip, List.getElem_range]
  rw [List.getD_eq_getElem A default (by omega), List.getD_eq_getElem B default (by omega)]

/-- C5: the `estimate_differences` algorithm.  (i) It fails with the
shape-mismatch error when the two estimators hold different numbers of
strata.  Otherwise it walks the strata from `s = L - 1` down to `0`,
subtracting the stratum IBFs and accumulating the decoded cardinalities:
(ii) if every stratum decodes it returns the exact sum, and (iii) at the
first (highest) stratum whose decoding fails it returns the accumulated
count multiplied by `2^(s+2)`, without looking at lower strata. -/
theorem C5_estimate_differences (hE : Nat → Nat) (hI : Nat → Nat → Nat) (fuel : Nat)
    (a b : StrataEstimator) (L : Nat) (S : Nat → Finset Side) :
    (a.ibfs.length ≠ b.ibfs.length →
      StrataEstimator.estimate_differences hE hI fuel a b
        = some (.error "Strata Estimators are of different sizes")) ∧
    (a.ibfs.length = L → b.ibfs.length = L →
      (∀ s, s < L → ∃ d, (a.ibfs.getD s default).sub (b.ibfs.getD s default) = .ok d ∧
        IBF.decodeFuel hE hI fuel d = some (.ok (S s))) →
      StrataEstimator.estimate_differences hE hI fuel a b
        = some (.ok (∑ s ∈ Finset.range L, (S s).card))) ∧
    (∀ s1, a.ibfs.length = L → b.ibfs.length = L → s1 < L →
      (∀ s, s1 < s → s < L →
        ∃ d, (a.ibfs.getD s default).sub (b.ibfs.getD s default) = .ok d ∧
          IBF.decodeFuel hE hI fuel d = some (.ok (S s))) →
      (∃ d msg, (a.ibfs.getD s1 default).sub (b.ibfs.getD s1 default) = .ok d ∧
        IBF.decodeFuel hE hI fuel d = some (.error msg)) →
      StrataEstimator.estimate_differences hE hI fuel a b
        = some (.ok ((∑ s ∈ Finset.Ico (s1 + 1) L, (S s).card) * 2 ^ (s1 + 2)))) := by
  refine ⟨fun hne => ?_, fun hA hB Hok => ?_, fun s1 hA hB hs1 Hok Hfail => ?_⟩
  · unfold StrataEstimator.estimate_differences
    rw [if_pos hne]
  · unfold StrataEstimator.estimate_differences
    rw [if_neg (by omega)]
    set zs := (((List.range a.ibfs.length).zip (a.ibfs.zip b.ibfs)).reverse)
      with hzs
    have hget : ∀ t, t < L → zs[t]? = some (L - 1 - t, a.ibfs.getD (L - 1 - t) default,
        b.ibfs.getD (L - 1 - t) default) := by
      intro t ht
      rw [hzs, hA]
      exact stratumList_getElem a.ibfs b.ibfs L hA hB t ht
    have hzlen : zs.length = L := by
      simp [hzs, List.length_zip, hA, hB]
    rw [estGo_all_ok hE hI fuel S zs 0 ?hmem]
    case hmem =>
      intro x hx
      obtain ⟨t, ht, hxt⟩ := List.mem_iff_getElem.mp hx
      have := hget t (by omega)
      rw [List.getElem?_eq_getElem ht] at this
      injection this with this
      rw [hxt] at this
      rw [this]
      exact Hok (L - 1 - t) (by omega)
    have hofn : zs = List.ofFn (fun t : Fin L => ((L - 1 - (t : Nat),
        a.ibfs.getD (L - 1 - (t : Nat)) default,
        b.ibfs.getD (L - 1 - (t : Nat)) default) : Nat × IBF × IBF)) := by
      apply List.ext_getElem
      · simp [hzlen]
      · intro t h1 h2
        have := hget t (by omega)
        rw [List.getElem?_eq_getElem h1] at this
        injection this with this
        rw [this]
        simp
    rw [hofn, List.map_ofFn, List.sum_ofFn]
    rw [Nat.zero_add]
    have hre : ∀ t : Fin L, ((fun x : Nat × IBF × IBF => (S x.1).card) ∘
        (fun t : Fin L => ((L - 1 - (t : Nat),
          a.ibfs.getD (L - 1 - (t : Nat)) default,
          b.ibfs.getD (L - 1 - (t : Nat)) default) : Nat × IBF × IBF))) t
        = (S (L - 1 - (t : Nat))).card := fun t => rfl
    rw [Finset.sum_congr rfl (fun t _ => hre t)]
    rw [Fin.sum_univ_eq_sum_range (fun t => (S (L - 1 - t)).card) L]
    exact congrArg (fun z => (some (Except.ok z) : Option (Except String Nat)))
      (Finset.sum_range_reflect (fun s => (S s).card) L)
  · unfold StrataEstimator.estimate_differences
    rw [if_neg (by omega)]
    set zs := (((List.range a.ibfs.length).zip (a.ibfs.zip b.ibfs)).reverse)
      with hzs
    have hget : ∀ t, t < L → zs[t]? = some (L - 1 - t, a.ibfs.getD (L - 1 - t) default,
        b.ibfs.getD (L - 1 - t) default) := by
      intro t ht
      rw [hzs, hA]
      exact stratumList_getElem a.ibfs b.ibfs L hA hB t ht
    have hzlen : zs.length = L := by
      simp [hzs, List.length_zip, hA, hB]
    obtain ⟨d1, msg, hd1, hd2⟩ := Hfail
    set n1 := L - 1 - s1 with hn1
    have hn1L : n1 < L := by omega
    have hsplit : zs = zs.take n1 ++ (s1, a.ibfs.getD s1 default, b.ibfs.getD s1 default)
        :: zs.drop (n1 + 1) := by
      have h1 : zs = zs.take n1 ++ zs.drop n1 := (List.take_append_drop n1 zs).symm
      have h2 : zs.drop n1 = zs[n1] :: zs.drop (n1 + 1) :=
        List.drop_eq_getElem_cons (by omega)
      have h3 : zs[n1] = (s1, a.ibfs.getD s1 default, b.ibfs.getD s1 default) := by
        have := hget n1 hn1L
        rw [List.getElem?_eq_getElem (by omega : n1 < zs.length)] at this
        injection this with this
        rw [this]
        have : L - 1 - n1 = s1 := by omega
        rw [this]
      conv_lhs => rw [← List.take_append_drop n1 zs,
        List.drop_eq_getElem_cons (show n1 < zs.length by omega), h3]
    rw [hsplit]
    rw [estGo_first_fail hE hI fuel S _ s1 _ _ _ 0 d1 msg ?hpre hd1 hd2]
    case hpre =>
      intro x hx
      obtain ⟨t, ht, hxt⟩ := List.mem_iff_getElem.mp hx
      have htn : t < n1 := by
        have := ht
        rw [List.length_take] at this
        omega
      have hxe : x = (L - 1 - t, a.ibfs.getD (L - 1 - t) default,
          b.ibfs.getD (L - 1 - t) default) := by
        have h5 := hget t (by omega)
        rw [List.getElem?_eq_getElem (by omega : t < zs.length)] at h5
        injection h5 with h5
        rw [← hxt, List.getElem_take, h5]
      rw [hxe]
      exact Hok (L - 1 - t) (by omega) (by omega)
    have htake : zs.take n1 = List.ofFn (fun t : Fin n1 => ((L - 1 - (t : Nat),
        a.ibfs.getD (L - 1 - (t : Nat)) default,
        b.ibfs.getD (L - 1 - (t : Nat)) default) : Nat × IBF × IBF)) := by
      apply List.ext_getElem
      · simp only [List.length_take, List.length_ofFn, hzlen]
        omega
      · intro t h1 h2
        rw [List.getElem_take]
        have := hget t (by rw [List.length_take] at h1; omega)
        rw [List.getElem?_eq_getElem (by rw [List.length_take] at h1; omega : t < zs.length)]
          at this
        injection this with this
        rw [this]
        simp
    have hre : ∀ t : Fin n1, ((fun x : Nat × IBF × IBF => (S x.1).card) ∘
        (fun t : Fin n1 => ((L - 1 - (t : Nat),
          a.ibfs.getD (L - 1 - (t : Nat)) default,
          b.ibfs.getD (L - 1 - (t : Nat)) default) : Nat × IBF × IBF))) t
        = (S (L - 1 - (t : Nat))).card := fun t => rfl
    have hLn : L - (s1 + 1) = n1 := by omega
    have hsum : (List.map (fun x => (S x.1).card) (zs.take n1)).sum
        = ∑ s ∈ Finset.Ico (s1 + 1) L, (S s).card := by
      rw [htake, List.map_ofFn, List.sum_ofFn]
      rw [Finset.sum_congr rfl (fun t _ => hre t)]
      rw [Fin.sum_univ_eq_sum_range (fun t => (S (L - 1 - t)).card) n1]
      rw [Finset.sum_Ico_eq_sum_range, hLn]
      rw [← Finset.sum_range_reflect (fun k => (S (s1 + 1 + k)).card) n1]
      apply Finset.sum_congr rfl
      intro t ht
      rw [Finset.mem_range] at ht
      have harith : L - 1 - t = s1 + 1 + (n1 - 1 - t) := by omega
      rw [harith]
    rw [Nat.zero_add, hsum]

/-- C5 (witness): a shape mismatch on different lengths, and the first-fail
extrapolation on a concrete two-stratum pair whose top stratum decodes one
element and whose bottom stratum is undecodable: the result is
`1 · 2^(0+2) = 4`. -/
theorem C5_estimate_differences_witness :
    (StrataEstimator.estimate_differences mElem mIdx 5 ⟨[IBF.new 1]⟩ ⟨[IBF.new 1, IBF.new 1]⟩
      = some (.error "Strata Estimators are of different sizes")) ∧
    (StrataEstimator.estimate_differences mElem mIdx 9
        ⟨[(IBF.new 1).encodeT mElem mIdx 1, (IBF.new 5).encodeT mElem mIdx 9]⟩
        ⟨[IBF.new 1, IBF.new 5]⟩
      = some (.ok ((∑ s ∈ Finset.Ico (0 + 1) 2,
          ((fun _ => ({Side.Left 9} : Finset Side)) s).card) * 2 ^ (0 + 2)))) := by
  constructor
  · exact (C5_estimate_differences mElem mIdx 5 ⟨[IBF.new 1]⟩ ⟨[IBF.new 1, IBF.new 1]⟩ 1
      (fun _ => ∅)).1 (by decide)
  · refine (C5_estimate_differences mElem mIdx 9
      ⟨[(IBF.new 1).encodeT mElem mIdx 1, (IBF.new 5).encodeT mElem mIdx 9]⟩
      ⟨[IBF.new 1, IBF.new 5]⟩ 2 (fun _ => {Side.Left 9})).2.2 0 rfl rfl (by decide)
      (fun s hs1 hs2 => ?_) ?_
    · have hs : s = 1 := by omega
      subst hs
      exact ⟨((((IBF.new 5).encodeT mElem mIdx 9).sub (IBF.new 5)).toOption.getD default),
        by decide, by decide⟩
    · exact ⟨((((IBF.new 1).encodeT mElem mIdx 1).sub (IBF.new 1)).toOption.getD default),
        "Unable to fully decode: 1 cells", by decide, by decide⟩

/-- C6: when the top stratum `s = L - 1` is the first stratum whose
difference fails to decode, `estimate_differences` returns `0`: the running
count is still `0` when it is multiplied by `2^(L+1)`. -/
theorem C6_top_stratum_saturation (hE : Nat → Nat) (hI : Nat → Nat → Nat) (fuel : Nat)
    (a b : StrataEstimator) (L : Nat) (d : IBF) (msg : String)
    (hA : a.ibfs.length = L) (hB : b.ibfs.length = L) (hL : 0 < L)
    (h1 : (a.ibfs.getD (L - 1) default).sub (b.ibfs.getD (L - 1) default) = .ok d)
    (h2 : IBF.decodeFuel hE hI fuel d = some (.error msg)) :
    StrataEstimator.estimate_differences hE hI fuel a b = some (.ok 0) := by
  unfold StrataEstimator.estimate_differences
  rw [if_neg (by omega)]
  set zs := (((List.range a.ibfs.length).zip (a.ibfs.zip b.ibfs)).reverse) with hzs
  have hzlen : zs.length = L := by
    simp [hzs, List.length_zip, hA, hB]
  have hget : zs[0]? = some (L - 1, a.ibfs.getD (L - 1) default,
      b.ibfs.getD (L - 1) default) := by
    rw [hzs, hA]
    have := stratumList_getElem a.ibfs b.ibfs L hA hB 0 hL
    simpa using this
  have hsplit : zs = (L - 1, a.ibfs.getD (L - 1) default, b.ibfs.getD (L - 1) default)
      :: zs.drop 1 := by
    have h2 : zs.drop 0 = zs[0] :: zs.drop 1 := List.drop_eq_getElem_cons (by omega)
    rw [List.drop_zero] at h2
    rw [List.getElem?_eq_getElem (by omega : 0 < zs.length)] at hget
    injection hget with hget
    conv_lhs => rw [h2, hget]
  rw [hsplit]
  simp only [estGo, h1, h2]
  rw [Nat.zero_mul]

/-- C6 (witness): a one-stratum estimator pair whose only (= top) stratum is
undecodable estimates `0`. -/
theorem C6_top_stratum_saturation_witness :
    StrataEstimator.estimate_differences mElem mIdx 5
      ⟨[(IBF.new 1).encodeT mElem mIdx 1]⟩ ⟨[IBF.new 1]⟩ = some (.ok 0) :=
  C6_top_stratum_saturation mElem mIdx 5 _ _ 1
    ((((IBF.new 1).encodeT mElem mIdx 1).sub (IBF.new 1)).toOption.getD default)
    "Unable to fully decode: 1 cells" rfl rfl (by decide) (by decide) (by decide)

/-! ## Claim C4 (amended part): peeling arithmetic, iteration bound,
termination in the toward-zero regime -/

lemma sum_map_eq_range (f : Cell → Nat) (l : List Cell) :
    (l.map f).sum = ∑ j ∈ Finset.range l.length, f (l.getD j default) := by
  induction l with
  | nil => simp
  | cons x xs ih =>
    simp only [List.map_cons, List.sum_cons, List.length_cons]
    rw [Finset.sum_range_succ']
    simp only [List.getD_cons_succ, List.getD_cons_zero]
    rw [ih]
    omega

lemma iterate_sub_count (p c : Cell) (n : Nat) :
    ((fun x => x.sub p)^[n] c).count = c.count - n * p.count := by
  induction n with
  | zero => simp
  | succ n ih =>
    rw [Function.iterate_succ_apply']
    show ((fun x => x.sub p)^[n] c).count - p.count = _
    rw [ih]
    push_cast
    ring

lemma iterate_encode_count (hE : Nat → Nat) (e : Nat) (c : Cell) (n : Nat) :
    ((fun x => x.encode hE e)^[n] c).count = c.count + n := by
  induction n with
  | zero => simp
  | succ n ih =>
    rw [Function.iterate_succ_apply']
    show ((fun x => x.encode hE e)^[n] c).count + 1 = _
    rw [ih]
    push_cast
    ring

lemma count_sum_of_lt (ids : List Nat) (n : Nat) (h : ∀ i ∈ ids, i < n) :
    ∑ j ∈ Finset.range n, ids.count j = ids.length := by
  induction ids with
  | nil => simp
  | cons i ids ih =>
    have hi : i < n := h i (List.mem_cons_self i ids)
    have hsum : ∀ j, List.count j (i :: ids) = List.count j ids + if i = j then 1 else 0 := by
      intro j
      rw [List.count_cons]
      by_cases hij : i = j <;> simp [hij]
    rw [Finset.sum_congr rfl (fun j _ => hsum j), Finset.sum_add_distrib]
    rw [ih (fun x hx => h x (List.mem_cons_of_mem i hx))]
    rw [Finset.sum_ite_eq (Finset.range n) i (fun _ => 1), if_pos (Finset.mem_range.mpr hi)]
    simp

lemma idxList_length (hI : Nat → Nat → Nat) (v : IBF) (e : Nat) :
    (v.idxList hI e).length = v.hash_count := by
  simp [IBF.idxList]

lemma idxList_lt (hI : Nat → Nat → Nat) (v : IBF) (e : Nat) (hs : 0 < v.size) :
    ∀ i ∈ v.idxList hI e, i < v.size := by
  intro i hi
  simp only [IBF.idxList, List.mem_map, IBF.get_ith_cell_idx] at hi
  obtain ⟨t, _, rfl⟩ := hi
  exact Nat.mod_lt _ hs

lemma remove_shape (hE : Nat → Nat) (hI : Nat → Nat → Nat) (v : IBF) (p : Cell) :
    (v.remove hE hI p).cells.length = v.cells.length ∧
    (v.remove hE hI p).size = v.size ∧ (v.remove hE hI p).hash_count = v.hash_count := by
  refine ⟨?_, rfl, rfl⟩
  unfold IBF.remove
  exact length_applyAt _ _ _

lemma peelStep_elim (hE : Nat → Nat) (hI : Nat → Nat → Nat) (v : IBF)
    (r : Side) (v2 : IBF) (h : v.peelStep hE hI = some (r, v2)) :
    ∃ p, v.cells.find? (fun c => c.is_pure hE) = some p ∧
      p.is_pure hE = true ∧ v2 = v.remove hE hI p := by
  unfold IBF.peelStep at h
  cases hfind : v.cells.find? (fun c => c.is_pure hE) with
  | none => rw [hfind] at h; exact absurd h (by simp)
  | some p =>
    rw [hfind] at h
    have hp : p.is_pure hE = true := List.find?_some hfind
    dsimp only at h
    rw [Cell.decode_of_pure hE p hp] at h
    dsimp only at h
    injection h with h
    exact ⟨p, rfl, hp, (congrArg Prod.snd h).symm⟩

/-- C4 amended, per-step arithmetic: a peeling step on a well-formed IBF in
the toward-zero regime lowers `Σ|count|` by exactly `hash_count`. -/
lemma peel_step_drop (hE : Nat → Nat) (hI : Nat → Nat → Nat) (v : IBF)
    (r : Side) (v2 : IBF)
    (hwf : v.cells.length = v.size) (hs : 0 < v.size)
    (hpeel : v.peelStep hE hI = some (r, v2))
    (htz : v.towardZero hE hI = true) :
    v2.sumAbsCount + v.hash_count = v.sumAbsCount := by
  obtain ⟨p, hfind, hp, hv2⟩ := peelStep_elim hE hI v r v2 hpeel
  set ids := v.idxList hI p.id_sum with hids
  have hidslt : ∀ i ∈ ids, i < v.cells.length := by
    rw [hwf]
    exact idxList_lt hI v p.id_sum hs
  -- the toward-zero condition, pointwise
  unfold IBF.towardZero at htz
  rw [hfind] at htz
  rw [List.all_eq_true] at htz
  have htzj : ∀ j, j < v.cells.length →
      ((v.cells.getD j default).count - ((ids.count j : Int)) * p.count).natAbs + ids.count j
        = (v.cells.getD j default).count.natAbs := by
    intro j hj
    have := htz j (List.mem_range.mpr hj)
    rwa [beq_iff_eq] at this
  -- the new state, pointwise
  have hcells2 : v2.cells = applyAt ids (fun c => c.sub p) v.cells := by
    rw [hv2]
    rfl
  have hlen2 : v2.cells.length = v.cells.length := by
    rw [hcells2, length_applyAt]
  have hcnt2 : ∀ j, j < v.cells.length →
      ((v2.cells.getD j default).count)
        = (v.cells.getD j default).count - (ids.count j : Int) * p.count := by
    intro j hj
    rw [hcells2, getD_applyAt ids _ v.cells j hj hidslt, iterate_sub_count]
  -- sum the pointwise equations
  unfold IBF.sumAbsCount
  rw [sum_map_eq_range, sum_map_eq_range, hlen2]
  have hsplit : ∀ j ∈ Finset.range v.cells.length,
      ((v2.cells.getD j default).count).natAbs + ids.count j
        = (v.cells.getD j default).count.natAbs := by
    intro j hj
    rw [Finset.mem_range] at hj
    rw [hcnt2 j hj]
    exact htzj j hj
  have hcount : ∑ j ∈ Finset.range v.cells.length, ids.count j = v.hash_count := by
    rw [count_sum_of_lt ids _ hidslt, hids, idxList_length]
  calc (∑ j ∈ Finset.range v.cells.length, ((v2.cells.getD j default).count).natAbs)
        + v.hash_count
      = (∑ j ∈ Finset.range v.cells.length, ((v2.cells.getD j default).count).natAbs)
        + ∑ j ∈ Finset.range v.cells.length, ids.count j := by rw [hcount]
    _ = ∑ j ∈ Finset.range v.cells.length,
        (((v2.cells.getD j default).count).natAbs + ids.count j) :=
      Finset.sum_add_distrib.symm
    _ = ∑ j ∈ Finset.range v.cells.length, ((v.cells.getD j default).count).natAbs :=
      Finset.sum_congr rfl hsplit

lemma decodeGo_succ (hE : Nat → Nat) (hI : Nat → Nat → Nat) (n : Nat) (v : IBF)
    (acc : Finset Side) :
    IBF.decodeGo hE hI (n + 1) v acc
      = match v.peelStep hE hI with
        | some (el, v2) => IBF.decodeGo hE hI n v2 (insert el acc)
        | none =>
          if v.cells.all (fun c => c.is_empty) then some (.ok acc)
          else some (.error ("Unable to fully decode: " ++
            toString ((v.cells.filter (fun c => ! c.is_empty)).length) ++ " cells")) := by
  cases hfind : v.cells.find? (fun c => c.is_pure hE) with
  | none => simp [IBF.decodeGo, IBF.peelStep, hfind]
  | some p =>
    have hp : p.is_pure hE = true := List.find?_some hfind
    simp only [IBF.decodeGo, IBF.peelStep, hfind, Cell.decode_of_pure hE p hp]

lemma decodeGo_none_isSome (hE : Nat → Nat) (hI : Nat → Nat → Nat) (v : IBF)
    (h : v.peelStep hE hI = none) (n : Nat) (acc : Finset Side) :
    (IBF.decodeGo hE hI (n + 1) v acc).isSome = true := by
  rw [decodeGo_succ, h]
  dsimp only
  split <;> rfl

lemma peelIter_succ (hE : Nat → Nat) (hI : Nat → Nat → Nat) (n : Nat) (v : IBF) :
    IBF.peelIter hE hI (n + 1) v
      = match v.peelStep hE hI with
        | some (_, v2) => IBF.peelIter hE hI n v2
        | none => none := rfl

/-- C4 amended, regime termination: when every reachable peeling state keeps
the toward-zero condition, `decode` returns within `Σ|count| / k` peeling
steps (fuel `Σ|count| / k + 1` suffices). -/
lemma decode_terminates_in_regime (hE : Nat → Nat) (hI : Nat → Nat → Nat)
    (v : IBF) (acc : Finset Side)
    (hwf : v.cells.length = v.size) (hs : 0 < v.size) (hk : 0 < v.hash_count)
    (hreg : ∀ n w, IBF.peelIter hE hI n v = some w → w.towardZero hE hI = true) :
    (IBF.decodeGo hE hI (v.sumAbsCount / v.hash_count + 1) v acc).isSome = true := by
  suffices H : ∀ (N : Nat) (v : IBF) (acc : Finset Side), v.sumAbsCount ≤ N →
      v.cells.length = v.size → 0 < v.size → 0 < v.hash_count →
      (∀ n w, IBF.peelIter hE hI n v = some w → w.towardZero hE hI = true) →
      (IBF.decodeGo hE hI (v.sumAbsCount / v.hash_count + 1) v acc).isSome = true by
    exact H v.sumAbsCount v acc le_rfl hwf hs hk hreg
  intro N
  induction N with
  | zero =>
    intro v acc hN hwf hs hk hreg
    cases hpeel : v.peelStep hE hI with
    | none => exact decodeGo_none_isSome hE hI v hpeel _ acc
    | some pr =>
      obtain ⟨el, v2⟩ := pr
      have := peel_step_drop hE hI v el v2 hwf hs hpeel (hreg 0 v rfl)
      omega
  | succ N ih =>
    intro v acc hN hwf hs hk hreg
    cases hpeel : v.peelStep hE hI with
    | none => exact decodeGo_none_isSome hE hI v hpeel _ acc
    | some pr =>
      obtain ⟨el, v2⟩ := pr
      have hdrop := peel_step_drop hE hI v el v2 hwf hs hpeel (hreg 0 v rfl)
      obtain ⟨p, hfind, hp, hv2⟩ := peelStep_elim hE hI v el v2 hpeel
      have hsh := remove_shape hE hI v p
      have hv2wf : v2.cells.length = v2.size := by
        rw [hv2, hsh.1, hsh.2.1]
        exact hwf
      have hv2s : 0 < v2.size := by
        rw [hv2, hsh.2.1]
        exact hs
      have hv2k : 0 < v2.hash_count := by
        rw [hv2, hsh.2.2]
        exact hk
      have hkle : v.hash_count ≤ v.sumAbsCount := by omega
      have hdiv : v.sumAbsCount / v.hash_count = v2.sumAbsCount / v.hash_count + 1 := by
        rw [Nat.div_eq_sub_div hk hkle]
        have h6 : v.sumAbsCount - v.hash_count = v2.sumAbsCount := by omega
        rw [h6]
      rw [hdiv]
      rw [decodeGo_succ, hpeel]
      dsimp only
      have hkk : v2.hash_count = v.hash_count := by rw [hv2, hsh.2.2]
      rw [show v2.sumAbsCount / v.hash_count = v2.sumAbsCount / v2.hash_count by rw [hkk]]
      apply ih v2 (insert el acc) (by omega) hv2wf hv2s hv2k
      intro n w hw
      apply hreg (n + 1) w
      rw [peelIter_succ, hpeel]
      exact hw

lemma sum_map_intCast (g : Nat → Nat) (l : List Nat) :
    (l.map (fun e => ((g e : Nat) : Int))).sum = (((l.map g).sum : Nat) : Int) := by
  induction l with
  | nil => simp
  | cons x xs ih => simp [ih]

lemma sum_filter_partition (f : Nat → Int) (p : Nat → Bool) (l : List Nat) :
    ((l.filter p).map f).sum + ((l.filter (fun a => !(p a))).map f).sum = (l.map f).sum := by
  induction l with
  | nil => simp
  | cons x xs ih =>
    cases hp : p x <;> simp [List.filter_cons, hp] <;> omega

lemma inter_perm (A B : List Nat) (hA : A.Nodup) (hB : B.Nodup) :
    (A.filter (fun e => decide (e ∈ B))).Perm (B.filter (fun e => decide (e ∈ A))) := by
  apply List.perm_of_nodup_nodup_toFinset_eq (hA.filter _) (hB.filter _)
  ext x
  simp only [List.mem_toFinset, List.mem_filter, decide_eq_true_eq]
  tauto

lemma sum_diff_cancel (A B : List Nat) (hA : A.Nodup) (hB : B.Nodup) (f : Nat → Int) :
    (A.map f).sum - (B.map f).sum
      = ((A.filter (fun e => !decide (e ∈ B))).map f).sum
        - ((B.filter (fun e => !decide (e ∈ A))).map f).sum := by
  have h1 := sum_filter_partition f (fun e => decide (e ∈ B)) A
  have h2 := sum_filter_partition f (fun e => decide (e ∈ A)) B
  have h3 : ((A.filter (fun e => decide (e ∈ B))).map f).sum
      = ((B.filter (fun e => decide (e ∈ A))).map f).sum :=
    List.Perm.sum_eq ((inter_perm A B hA hB).map f)
  omega

lemma sum_swap_list (m : Nat) (l : List Nat) (g : Nat → Nat → Nat) :
    ∑ j ∈ Finset.range m, (l.map (fun e => g e j)).sum
      = (l.map (fun e => ∑ j ∈ Finset.range m, g e j)).sum := by
  induction l with
  | nil => simp
  | cons x xs ih => simp only [List.map_cons, List.sum_cons, Finset.sum_add_distrib, ih]

lemma sum_map_const_nat (l : List Nat) (c : Nat) :
    (l.map (fun _ => c)).sum = c * l.length := by
  induction l with
  | nil => simp
  | cons x xs ih =>
    simp only [List.map_cons, List.sum_cons, List.length_cons, ih]
    ring

lemma encodeT_length (hE : Nat → Nat) (hI : Nat → Nat → Nat) (v : IBF) (e : Nat) :
    (v.encodeT hE hI e).cells.length = v.cells.length := by
  unfold IBF.encodeT
  exact length_applyAt _ _ _

lemma foldl_encodeT_shape (hE : Nat → Nat) (hI : Nat → Nat → Nat) :
    ∀ (l : List Nat) (v : IBF),
    (l.foldl (fun s e => s.encodeT hE hI e) v).cells.length = v.cells.length ∧
    (l.foldl (fun s e => s.encodeT hE hI e) v).size = v.size ∧
    (l.foldl (fun s e => s.encodeT hE hI e) v).hash_count = v.hash_count := by
  intro l
  induction l with
  | nil => intro v; exact ⟨rfl, rfl, rfl⟩
  | cons x xs ih =>
    intro v
    rw [List.foldl_cons]
    refine ⟨?_, (ih _).2.1, (ih _).2.2⟩
    rw [(ih _).1, encodeT_length]

lemma foldl_encodeT_count (hE : Nat → Nat) (hI : Nat → Nat → Nat) :
    ∀ (l : List Nat) (v : IBF) (j : Nat),
    v.cells.length = v.size → 0 < v.size → j < v.cells.length →
    ((l.foldl (fun s e => s.encodeT hE hI e) v).cells.getD j default).count
      = (v.cells.getD j default).count
        + (l.map (fun e => (((v.idxList hI e).count j : Nat) : Int))).sum := by
  intro l
  induction l with
  | nil => intro v j _ _ _; simp
  | cons x xs ih =>
    intro v j hwf hs hj
    rw [List.foldl_cons]
    have hT : (v.encodeT hE hI x).cells.length = v.cells.length := encodeT_length hE hI v x
    rw [ih (v.encodeT hE hI x) j (by rw [hT]; exact hwf) hs (by rw [hT]; exact hj)]
    have hidsx : ∀ e, (v.encodeT hE hI x).idxList hI e = v.idxList hI e := fun e => rfl
    simp only [hidsx]
    have henc : ((v.encodeT hE hI x).cells.getD j default).count
        = (v.cells.getD j default).count + (((v.idxList hI x).count j : Nat) : Int) := by
      show ((applyAt (v.idxList hI x) (fun c => c.encode hE x) v.cells).getD j default).count = _
      rw [getD_applyAt _ _ _ _ hj (by rw [hwf]; exact idxList_lt hI v x hs)]
      rw [iterate_encode_count]
    rw [henc]
    simp only [List.map_cons, List.sum_cons]
    ring

lemma sub_ok (l r : IBF) (h1 : l.hash_count = r.hash_count) (h2 : l.size = r.size) :
    l.sub r = .ok ⟨(l.cells.zip r.cells).map (fun p => p.1.sub p.2), l.hash_count, l.size⟩ := by
  unfold IBF.sub
  rw [if_neg (by simp [h1, h2])]

lemma zip_map_sub_getD (lc rc : List Cell) (j : Nat) (hj1 : j < lc.length)
    (hj2 : j < rc.length) :
    (((lc.zip rc).map (fun p => p.1.sub p.2)).getD j default)
      = (lc.getD j default).sub (rc.getD j default) := by
  have hj : j < (lc.zip rc).length := by
    simp [List.length_zip]
    omega
  rw [List.getD_eq_getElem?_getD, List.getElem?_map, List.getElem?_eq_getElem hj]
  simp only [List.getElem_zip]
  rw [List.getD_eq_getElem lc default hj1, List.getD_eq_getElem rc default hj2]
  rfl

/-- C4 amended, initial bound: the difference of two IBFs encoding the
Nodup lists `A` and `B` starts with `Σ|count| ≤ k · |A △ B|`: a common
element contributes identically to both sides of the cell-wise subtraction
and cancels, and each differing element touches `k` buckets. -/
lemma diff_sumAbs_le (hE : Nat → Nat) (hI : Nat → Nat → Nat) (m k : Nat)
    (A B : List Nat) (va vb d : IBF)
    (hm : 0 < m) (hA : A.Nodup) (hB : B.Nodup)
    (hva : (IBF.new_with_hash_count m k).encodeAll hE hI A = some va)
    (hvb : (IBF.new_with_hash_count m k).encodeAll hE hI B = some vb)
    (hd : va.sub vb = .ok d) :
    d.sumAbsCount ≤ k * ((A.filter (fun e => !decide (e ∈ B))).length
      + (B.filter (fun e => !decide (e ∈ A))).length) := by
  set v0 := IBF.new_with_hash_count m k with hv0
  have hv0len : v0.cells.length = m := by
    rw [hv0]
    unfold IBF.new_with_hash_count
    exact List.length_replicate m default
  have hv0size : v0.size = m := rfl
  have hv0k : v0.hash_count = k := rfl
  have hv0wf : v0.cells.length = v0.size := by rw [hv0len, hv0size]
  have hv0s : 0 < v0.size := by rw [hv0size]; exact hm
  -- unpack the encodings
  rw [encodeAll_some_of_size_ne hE hI A v0 (by rw [hv0size]; omega)] at hva
  rw [encodeAll_some_of_size_ne hE hI B v0 (by rw [hv0size]; omega)] at hvb
  injection hva with hva
  injection hvb with hvb
  have hvaS := foldl_encodeT_shape hE hI A v0
  have hvbS := foldl_encodeT_shape hE hI B v0
  have hvalen : va.cells.length = m := by rw [← hva]; rw [hvaS.1, hv0len]
  have hvblen : vb.cells.length = m := by rw [← hvb]; rw [hvbS.1, hv0len]
  -- the difference
  rw [sub_ok va vb (by rw [← hva, ← hvb, hvaS.2.2, hvbS.2.2])
    (by rw [← hva, ← hvb, hvaS.2.1, hvbS.2.1])] at hd
  injection hd with hd
  have hdcells : d.cells = (va.cells.zip vb.cells).map (fun p => p.1.sub p.2) := by
    rw [← hd]
  have hdlen : d.cells.length = m := by
    rw [hdcells]
    simp [List.length_zip, hvalen, hvblen]
  -- the zero start
  have hv0getD : ∀ j, j < m → (v0.cells.getD j default) = default := by
    intro j hj
    rw [hv0]
    unfold IBF.new_with_hash_count
    rw [List.getD_eq_getElem?_getD, List.getElem?_replicate, if_pos hj]
    rfl
  -- pointwise count of the difference
  have hcnt : ∀ j, j < m → (d.cells.getD j default).count
      = (A.map (fun e => (((v0.idxList hI e).count j : Nat) : Int))).sum
        - (B.map (fun e => (((v0.idxList hI e).count j : Nat) : Int))).sum := by
    intro j hj
    rw [hdcells, zip_map_sub_getD va.cells vb.cells j (by omega) (by omega)]
    show (va.cells.getD j default).count - (vb.cells.getD j default).count = _
    rw [← hva, ← hvb]
    rw [foldl_encodeT_count hE hI A v0 j hv0wf hv0s (by omega),
      foldl_encodeT_count hE hI B v0 j hv0wf hv0s (by omega)]
    rw [hv0getD j hj]
    show (0 : Int) + _ - ((0 : Int) + _) = _
    ring
  -- pointwise bound through the symmetric difference
  set A1 := A.filter (fun e => !decide (e ∈ B)) with hA1
  set B1 := B.filter (fun e => !decide (e ∈ A)) with hB1
  have habs : ∀ j, j < m → (d.cells.getD j default).count.natAbs
      ≤ (A1.map (fun e => (v0.idxList hI e).count j)).sum
        + (B1.map (fun e => (v0.idxList hI e).count j)).sum := by
    intro j hj
    rw [hcnt j hj]
    rw [sum_diff_cancel A B hA hB (fun e => (((v0.idxList hI e).count j : Nat) : Int))]
    calc (((A1.map (fun e => (((v0.idxList hI e).count j : Nat) : Int))).sum
          - (B1.map (fun e => (((v0.idxList hI e).count j : Nat) : Int))).sum)).natAbs
        ≤ ((A1.map (fun e => (((v0.idxList hI e).count j : Nat) : Int))).sum).natAbs
          + ((B1.map (fun e => (((v0.idxList hI e).count j : Nat) : Int))).sum).natAbs :=
        Int.natAbs_sub_le _ _
      _ = (A1.map (fun e => (v0.idxList hI e).count j)).sum
          + (B1.map (fun e => (v0.idxList hI e).count j)).sum := by
        rw [sum_map_intCast (fun e => List.count j (IBF.idxList hI v0 e)) A1,
          sum_map_intCast (fun e => List.count j (IBF.idxList hI v0 e)) B1]
        rw [Int.natAbs_ofNat, Int.natAbs_ofNat]
  -- sum over the buckets
  unfold IBF.sumAbsCount
  rw [sum_map_eq_range, hdlen]
  calc ∑ j ∈ Finset.range m, (d.cells.getD j default).count.natAbs
      ≤ ∑ j ∈ Finset.range m, ((A1.map (fun e => (v0.idxList hI e).count j)).sum
          + (B1.map (fun e => (v0.idxList hI e).count j)).sum) :=
      Finset.sum_le_sum (fun j hj => habs j (Finset.mem_range.mp hj))
    _ = (A1.map (fun e => ∑ j ∈ Finset.range m, (v0.idxList hI e).count j)).sum
        + (B1.map (fun e => ∑ j ∈ Finset.range m, (v0.idxList hI e).count j)).sum := by
      rw [Finset.sum_add_distrib, sum_swap_list, sum_swap_list]
    _ = (A1.map (fun _ => k)).sum + (B1.map (fun _ => k)).sum := by
      have hfix : ∀ e : Nat, ∑ j ∈ Finset.range m, (v0.idxList hI e).count j = k := by
        intro e
        rw [count_sum_of_lt (v0.idxList hI e) m
          (by rw [← hv0size]; exact idxList_lt hI v0 e hv0s)]
        rw [idxList_length, hv0k]
      rw [List.map_congr_left (fun e _ => hfix e), List.map_congr_left (fun e _ => hfix e)]
    _ = k * (A1.length + B1.length) := by
      rw [sum_map_const_nat, sum_map_const_nat]
      ring

lemma decodeGo_mono (hE : Nat → Nat) (hI : Nat → Nat → Nat) :
    ∀ (n m : Nat) (v : IBF) (acc : Finset Side) (r : Except String (Finset Side)),
    IBF.decodeGo hE hI n v acc = some r → n ≤ m → IBF.decodeGo hE hI m v acc = some r := by
  intro n
  induction n with
  | zero =>
    intro m v acc r h
    exact absurd h (by simp [IBF.decodeGo])
  | succ n ih =>
    intro m v acc r h hnm
    obtain ⟨m2, rfl⟩ : ∃ m2, m = m2 + 1 := ⟨m - 1, by omega⟩
    rw [decodeGo_succ] at h ⊢
    cases hpeel : v.peelStep hE hI with
    | none =>
      rw [hpeel] at h
      dsimp only at h ⊢
      exact h
    | some pr =>
      obtain ⟨el, v2⟩ := pr
      rw [hpeel] at h
      dsimp only at h ⊢
      exact ih m2 v2 _ r h (by omega)

/-- The shape facts of the cell-wise difference of two encoded IBFs. -/
lemma diff_shape (hE : Nat → Nat) (hI : Nat → Nat → Nat) (m k : Nat)
    (A B : List Nat) (va vb d : IBF) (hm : 0 < m)
    (hva : (IBF.new_with_hash_count m k).encodeAll hE hI A = some va)
    (hvb : (IBF.new_with_hash_count m k).encodeAll hE hI B = some vb)
    (hd : va.sub vb = .ok d) :
    d.cells.length = m ∧ d.size = m ∧ d.hash_count = k := by
  set v0 := IBF.new_with_hash_count m k with hv0
  have hv0len : v0.cells.length = m := by
    rw [hv0]
    unfold IBF.new_with_hash_count
    exact List.length_replicate m default
  have hv0size : v0.size = m := rfl
  rw [encodeAll_some_of_size_ne hE hI A v0 (by rw [hv0size]; omega)] at hva
  rw [encodeAll_some_of_size_ne hE hI B v0 (by rw [hv0size]; omega)] at hvb
  injection hva with hva
  injection hvb with hvb
  have hvaS := foldl_encodeT_shape hE hI A v0
  have hvbS := foldl_encodeT_shape hE hI B v0
  rw [sub_ok va vb (by rw [← hva, ← hvb, hvaS.2.2, hvbS.2.2])
    (by rw [← hva, ← hvb, hvaS.2.1, hvbS.2.1])] at hd
  injection hd with hd
  refine ⟨?_, ?_, ?_⟩
  · rw [← hd]
    show ((va.cells.zip vb.cells).map (fun p => p.1.sub p.2)).length = m
    rw [List.length_map, List.length_zip, ← hva, ← hvb, hvaS.1, hvbS.1, hv0len]
    simp
  · rw [← hd]
    show va.size = m
    rw [← hva, hvaS.2.1]
    rfl
  · rw [← hd]
    show va.hash_count = k
    rw [← hva, hvaS.2.2]
    rfl

/-- C4 (amended): peeling arithmetic corrected.  (a) A peeling step on a
well-formed IBF whose touched cells all move toward zero (the situation the
claim's accounting presumes, collisions included) strictly reduces
`Σ|count|` by exactly `k` — not `2k`.  (b) Consequently, when every
reachable peeling state keeps that condition, the loop performs at most
`Σ|count| / k` peeling steps and `decode` terminates with that much fuel.
(c) On the difference of two IBFs encoding Nodup element lists `A` and `B`,
the initial `Σ|count|` is at most `k · |A △ B|`, so in that regime the loop
runs at most `|A △ B|` iterations. -/
theorem C4_peeling_amended :
    (∀ (hE : Nat → Nat) (hI : Nat → Nat → Nat) (v : IBF) (r : Side) (v2 : IBF),
      v.cells.length = v.size → 0 < v.size →
      v.peelStep hE hI = some (r, v2) → v.towardZero hE hI = true →
      v2.sumAbsCount + v.hash_count = v.sumAbsCount) ∧
    (∀ (hE : Nat → Nat) (hI : Nat → Nat → Nat) (v : IBF) (acc : Finset Side),
      v.cells.length = v.size → 0 < v.size → 0 < v.hash_count →
      (∀ n w, IBF.peelIter hE hI n v = some w → w.towardZero hE hI = true) →
      (IBF.decodeGo hE hI (v.sumAbsCount / v.hash_count + 1) v acc).isSome = true) ∧
    (∀ (hE : Nat → Nat) (hI : Nat → Nat → Nat) (m k : Nat)
      (A B : List Nat) (va vb d : IBF),
      0 < m → A.Nodup → B.Nodup →
      (IBF.new_with_hash_count m k).encodeAll hE hI A = some va →
      (IBF.new_with_hash_count m k).encodeAll hE hI B = some vb →
      va.sub vb = .ok d →
      d.sumAbsCount ≤ k * ((A.filter (fun e => !decide (e ∈ B))).length
        + (B.filter (fun e => !decide (e ∈ A))).length)) ∧
    (∀ (hE : Nat → Nat) (hI : Nat → Nat → Nat) (m k : Nat)
      (A B : List Nat) (va vb d : IBF) (acc : Finset Side),
      0 < m → 0 < k → A.Nodup → B.Nodup →
      (IBF.new_with_hash_count m k).encodeAll hE hI A = some va →
      (IBF.new_with_hash_count m k).encodeAll hE hI B = some vb →
      va.sub vb = .ok d →
      (∀ n w, IBF.peelIter hE hI n d = some w → w.towardZero hE hI = true) →
      (IBF.decodeGo hE hI ((A.filter (fun e => !decide (e ∈ B))).length
        + (B.filter (fun e => !decide (e ∈ A))).length + 1) d acc).isSome = true) := by
  refine ⟨fun hE hI v r v2 hwf hs hpeel htz => peel_step_drop hE hI v r v2 hwf hs hpeel htz,
    fun hE hI v acc hwf hs hk hreg => decode_terminates_in_regime hE hI v acc hwf hs hk hreg,
    fun hE hI m k A B va vb d hm hA hB hva hvb hd =>
      diff_sumAbs_le hE hI m k A B va vb d hm hA hB hva hvb hd,
    fun hE hI m k A B va vb d acc hm hk hA hB hva hvb hd hreg => ?_⟩
  have hsh := diff_shape hE hI m k A B va vb d hm hva hvb hd
  have hb := decode_terminates_in_regime hE hI d acc
    (by rw [hsh.1, hsh.2.1]) (by rw [hsh.2.1]; exact hm) (by rw [hsh.2.2]; exact hk) hreg
  have hc := diff_sumAbs_le hE hI m k A B va vb d hm hA hB hva hvb hd
  have hdiv : d.sumAbsCount / d.hash_count
      ≤ (A.filter (fun e => !decide (e ∈ B))).length
        + (B.filter (fun e => !decide (e ∈ A))).length := by
    rw [hsh.2.2]
    exact Nat.div_le_of_le_mul hc
  obtain ⟨r, hr⟩ := Option.isSome_iff_exists.mp hb
  rw [Option.isSome_iff_exists]
  exact ⟨r, decodeGo_mono hE hI _ _ d acc r hr (by omega)⟩

/-- C4 (witness): on the concrete difference of `IBF({3})` and `IBF(∅)` at
`m = 5`, the peeling step reduces `Σ|count|` by `k = 3`, the decoder
terminates with fuel `Σ|count|/k + 1`, and `Σ|count| = 3 ≤ k · |A △ B|`. -/
theorem C4_peeling_amended_witness :
    (peelScenarioNext.sumAbsCount + peelScenario.hash_count = peelScenario.sumAbsCount) ∧
    ((IBF.decodeGo mElem mIdx
        (peelScenario.sumAbsCount / peelScenario.hash_count + 1) peelScenario ∅).isSome
      = true) ∧
    (peelScenario.sumAbsCount ≤ 3 * ((([3] : List Nat).filter
        (fun e => !decide (e ∈ ([] : List Nat)))).length
      + (([] : List Nat).filter (fun e => !decide (e ∈ ([3] : List Nat)))).length)) ∧
    ((IBF.decodeGo mElem mIdx ((([3] : List Nat).filter
        (fun e => !decide (e ∈ ([] : List Nat)))).length
      + (([] : List Nat).filter (fun e => !decide (e ∈ ([3] : List Nat)))).length + 1)
        peelScenario ∅).isSome = true) := by
  have hpeel : peelScenario.peelStep mElem mIdx = some (Side.Left 3, peelScenarioNext) := by
    decide
  have hreg : ∀ n w, IBF.peelIter mElem mIdx n peelScenario = some w →
      w.towardZero mElem mIdx = true := by
    intro n w hw
    match n with
    | 0 =>
      injection hw with hw
      rw [← hw]
      decide
    | 1 =>
      rw [peelIter_succ, hpeel] at hw
      dsimp only at hw
      injection hw with hw
      rw [← hw]
      decide
    | (n + 2) =>
      rw [peelIter_succ, hpeel] at hw
      dsimp only at hw
      rw [peelIter_succ, show peelScenarioNext.peelStep mElem mIdx = none from by decide]
        at hw
      exact absurd hw (by simp)
  refine ⟨?_, ?_, ?_, ?_⟩
  · exact C4_peeling_amended.1 mElem mIdx peelScenario (Side.Left 3) peelScenarioNext
      (by decide) (by decide) hpeel (by decide)
  · exact C4_peeling_amended.2.1 mElem mIdx peelScenario ∅ (by decide) (by decide)
      (by decide) hreg
  · exact C4_peeling_amended.2.2.1 mElem mIdx 5 3 [3] [] ((IBF.new 5).encodeT mElem mIdx 3)
      (IBF.new 5) peelScenario (by decide) (by decide) (by decide) (by decide) (by decide)
      (by decide)
  · exact C4_peeling_amended.2.2.2 mElem mIdx 5 3 [3] [] ((IBF.new 5).encodeT mElem mIdx 3)
      (IBF.new 5) peelScenario ∅ (by decide) (by decide) (by decide) (by decide) (by decide)
      (by decide) (by decide) hreg

/-- C3 (witness): concrete instance with `S = {5}` and `m = 4`. -/
theorem C3_identity_witness :
    ∃ d, ((IBF.new 4).encodeT mElem mIdx 5).sub ((IBF.new 4).encodeT mElem mIdx 5) = .ok d ∧
      IBF.DecodesTo mElem mIdx d (.ok ∅) :=
  C3_identity mElem mIdx [5] 4 _ (by decide)

end IronRose
